import Mathlib

/-!
Verification of the clamber/OpenSearch crawler core: a shallow embedding of
`page/page.go` (URL normalisation and page expansion) and
`database/database.go` (graph codec and graph store protocols), with theorems
settling the specification claims about them.

Conventions of the embedding:
* Go strings are `String`/`List Char`; Go `int`/`int64` are `Int` (the code
  performs no overflowing arithmetic on them, only construction, comparison
  and decrement).
* Fallible Go calls return `Except`/`Option`.
* External effects (dgraph transactions, HTTP) are modelled by explicit
  oracles giving the outcome of each call, indexed by the attempt number.
* JSON bytes are modelled by a JSON value tree (`JVal`): `json.Marshal`
  produces the field list a struct marshals to (in declared field order,
  honouring `omitempty`), and `json.Unmarshal` reads it back.
-/

namespace Clamber

/-! ### Data model: `page.Page` (page/page.go, database/database.go)

`page.Page` is a recursive Go struct: `Children []*Page` and a `Parent *Page`
back-pointer plus `Uid`, `Url`, `Depth`, `Timestamp`, `Body` fields as used
across page.go and database.go.  The `Parent` pointer cannot be represented
directly in a tree; we record the identity `(uid, url, timestamp)` of the
parent node, which is exactly the data `ConvertToPage` has written into the
parent when it sets the back-reference. -/

inductive Page where
  | mk (uid url : String) (timestamp : Int) (depth : Int) (body : String)
      (parent : Option (String × String × Int)) (children : List Page)

def Page.uid : Page → String
  | .mk u _ _ _ _ _ _ => u

def Page.url : Page → String
  | .mk _ u _ _ _ _ _ => u

def Page.timestamp : Page → Int
  | .mk _ _ t _ _ _ _ => t

def Page.depth : Page → Int
  | .mk _ _ _ d _ _ _ => d

def Page.body : Page → String
  | .mk _ _ _ _ b _ _ => b

def Page.parent : Page → Option (String × String × Int)
  | .mk _ _ _ _ _ p _ => p

def Page.children : Page → List Page
  | .mk _ _ _ _ _ _ cs => cs

/-- Identity triple of a page, the data `ConvertToPage` stores into children
as their parent back-reference. -/
def Page.ident (p : Page) : String × String × Int := (p.uid, p.url, p.timestamp)

mutual

/-- Total number of nodes of a page tree. -/
def pageSize : Page → Nat
  | .mk _ _ _ _ _ _ cs => 1 + pageSizeList cs

/-- Total number of nodes of a list of page trees. -/
def pageSizeList : List Page → Nat
  | [] => 0
  | p :: ps => pageSize p + pageSizeList ps

end

mutual

/-- Height of a page tree: number of edges on the longest root-to-leaf path. -/
def pageHeight : Page → Nat
  | .mk _ _ _ _ _ _ cs => pageHeightList cs

def pageHeightList : List Page → Nat
  | [] => 0
  | p :: ps => max (pageHeight p + 1) (pageHeightList ps)

end

mutual

/-- Every child of every node carries its parent's identity triple as its
back-reference. -/
def parentRefsOk : Page → Bool
  | .mk uid url ts _ _ _ cs => childRefsOk (uid, url, ts) cs

def childRefsOk (par : String × String × Int) : List Page → Bool
  | [] => true
  | p :: ps => (decide (p.parent = some par)) && parentRefsOk p && childRefsOk par ps

end

/-! ### Graph codec: wire representation (database/database.go)

`JsonPage` mirrors the Go struct of the same name:
```
Uid       string      `json:"uid,omitempty"`
Url       string      `json:"url,omitempty"`
Timestamp int64       `json:"timestamp,omitempty"`
Children  []*JsonPage `json:"links,omitempty"`
```
-/

inductive JsonPage where
  | mk (uid url : String) (timestamp : Int) (children : List JsonPage)

def JsonPage.uid : JsonPage → String
  | .mk u _ _ _ => u

def JsonPage.url : JsonPage → String
  | .mk _ u _ _ => u

def JsonPage.timestamp : JsonPage → Int
  | .mk _ _ t _ => t

def JsonPage.children : JsonPage → List JsonPage
  | .mk _ _ _ cs => cs

/-- A JSON value: the parsed form of the bytes exchanged with dgraph. -/
inductive JVal where
  | str (s : String)
  | num (n : Int)
  | arr (elems : List JVal)
  | obj (fields : List (String × JVal))

/-- Keys of a JSON object value. -/
def jvalKeys : JVal → List String
  | .obj fields => fields.map Prod.fst
  | _ => []

mutual

/-- `encoding/json` marshalling of a `JsonPage`: fields in declared order,
each dropped when its value is empty (`omitempty`: empty string, zero
integer, empty slice). -/
def marshalJsonPage : JsonPage → JVal
  | .mk uid url ts children =>
    .obj ((if uid = "" then [] else [("uid", JVal.str uid)]) ++
          (if url = "" then [] else [("url", JVal.str url)]) ++
          (if ts = 0 then [] else [("timestamp", JVal.num ts)]) ++
          (if children.isEmpty then [] else [("links", JVal.arr (marshalJsonPageList children))]))

def marshalJsonPageList : List JsonPage → List JVal
  | [] => []
  | p :: ps => marshalJsonPage p :: marshalJsonPageList ps

end

def JsonPage.setUid : JsonPage → String → JsonPage
  | .mk _ url ts cs, u => .mk u url ts cs

def JsonPage.setUrl : JsonPage → String → JsonPage
  | .mk uid _ ts cs, u => .mk uid u ts cs

def JsonPage.setTimestamp : JsonPage → Int → JsonPage
  | .mk uid url _ cs, t => .mk uid url t cs

def JsonPage.setChildren : JsonPage → List JsonPage → JsonPage
  | .mk uid url ts _, cs => .mk uid url ts cs

/-- The string content of a JSON value, zero value on type mismatch.
(Go `json.Unmarshal` reports a type mismatch as an error; the claims under
verification only exercise well-typed documents, so the mismatch arm is
never reached by any theorem below.) -/
def JVal.asStr : JVal → String
  | .str s => s
  | _ => ""

def JVal.asInt : JVal → Int
  | .num n => n
  | _ => 0

mutual

/-- `encoding/json` unmarshalling of a `JsonPage` from a JSON value:
known keys are decoded into the struct (a later duplicate key overwrites an
earlier one, as in Go), unknown keys are ignored, missing keys leave the
zero value. -/
def unmarshalJsonPage : JVal → JsonPage
  | .obj fields => unmarshalFields fields (.mk "" "" 0 [])
  | _ => .mk "" "" 0 []

def unmarshalFields : List (String × JVal) → JsonPage → JsonPage
  | [], acc => acc
  | (k, v) :: rest, acc =>
    if k = "uid" then unmarshalFields rest (acc.setUid v.asStr)
    else if k = "url" then unmarshalFields rest (acc.setUrl v.asStr)
    else if k = "timestamp" then unmarshalFields rest (acc.setTimestamp v.asInt)
    else if k = "links" then unmarshalFields rest (acc.setChildren (unmarshalLinks v))
    else unmarshalFields rest acc

def unmarshalLinks : JVal → List JsonPage
  | .arr elems => unmarshalJsonPageList elems
  | _ => []

def unmarshalJsonPageList : List JVal → List JsonPage
  | [] => []
  | v :: vs => unmarshalJsonPage v :: unmarshalJsonPageList vs

end

/-- `ConvertToJsonPage` (database.go:128): only `Url` and `Timestamp` are
copied; `Uid` and `Children` are left at their zero values and are therefore
never marshalled. -/
def ConvertToJsonPage (currentPage : Page) : JsonPage :=
  .mk "" currentPage.url currentPage.timestamp []

/-- `SerializePage` (database.go:63): marshal the minimal wire form of a
page.  We model the produced bytes by the JSON value they parse to. -/
def SerializePage (currentPage : Page) : JVal :=
  marshalJsonPage (ConvertToJsonPage currentPage)

mutual

/-- `ConvertToPage` (database.go:98): rebuild a `Page` tree from a decoded
`JsonPage` tree, setting each child's parent back-reference to the node
being built.  The Go code fans the child conversions out to goroutines and
fans them back in over a channel before returning, so the multiset of
converted children is deterministic while their order in `Children` is not;
we model the conversion by the input linearisation (one admissible fan-in
order). -/
def ConvertToPage (parentIdent : Option (String × String × Int)) : JsonPage → Page
  | .mk uid url ts children =>
    .mk uid url ts 0 "" parentIdent (convertChildren (uid, url, ts) children)

def convertChildren (par : String × String × Int) : List JsonPage → List Page
  | [] => []
  | j :: js => ConvertToPage (some par) j :: convertChildren par js

end

/-- Last-wins lookup of a key in a JSON object's field list (Go `json`
decoding of duplicate keys keeps the last value). -/
def jlookupLast (fields : List (String × JVal)) (k : String) : Option JVal :=
  fields.foldl (fun acc f => if f.1 = k then some f.2 else acc) none

/-- `DeserializePage` (database.go:72): decode `{"result": [...]}`; a
nonempty result list is converted from its first element with no parent,
anything else yields no page. -/
def DeserializePage (v : JVal) : Option Page :=
  match v with
  | .obj fields =>
    match jlookupLast fields "result" with
    | some (.arr (x :: _)) => some (ConvertToPage none (unmarshalJsonPage x))
    | _ => none
  | _ => none

/-! ### Graph store: `FindOrCreateNode` (database.go:202)

The loop body opens a transaction and performs three external calls whose
outcomes we supply through an oracle indexed by the iteration number:
`FindNode` (query by url), `Mutate` (create, returning the assigned uid for
key "blank-0") and `Commit`.  The Go loop is `for uid == ""` with no retry
bound, so the embedding takes a fuel parameter; `timeout` is the observation
that the loop is still running after that many iterations. -/

structure FocOracle where
  /-- Outcome of `FindNode` on iteration `i`: an error, no node, or the uid
  of the found node. -/
  find : Nat → Except String (Option String)
  /-- Outcome of `txn.Mutate` on iteration `i`: an error or the assigned
  uid `assigned.Uids["blank-0"]`. -/
  mutate : Nat → Except String String
  /-- Outcome of `txn.Commit` on iteration `i`: `some e` is a failure. -/
  commit : Nat → Option String

inductive FocResult where
  /-- The loop has not returned within the given fuel. -/
  | timeout
  /-- The function returned this uid and error. -/
  | ret (uid : String) (err : Option String)
deriving DecidableEq

/-- `FindOrCreateNode`, one constructor case per path through the loop body:
find error and mutate error return immediately; after a create, the assigned
uid is adopted only when the commit error is `nil` (`if uid == "" && err ==
nil`); the loop exits as soon as `uid` is nonempty, returning the commit
error of the last iteration; otherwise it loops again — unconditionally,
since the loop head only tests `uid == ""`. -/
def FindOrCreateNodeFuel (o : FocOracle) : Nat → Nat → FocResult
  | 0, _ => .timeout
  | fuel + 1, i =>
    match o.find i with
    | .error e => .ret "" (some e)
    | .ok found =>
      let uid1 := found.getD ""
      if uid1 = "" then
        match o.mutate i with
        | .error e => .ret "" (some e)
        | .ok assigned =>
          match o.commit i with
          | some _ => FindOrCreateNodeFuel o fuel (i + 1)
          | none =>
            if assigned = "" then FindOrCreateNodeFuel o fuel (i + 1)
            else .ret assigned none
      else .ret uid1 (o.commit i)

/-- A store that persistently fails every commit with an error that is not a
transient-conflict condition (node never found, mutation accepted, commit
refused). -/
def focStuckOracle : FocOracle where
  find := fun _ => .ok none
  mutate := fun _ => .ok "0x1"
  commit := fun _ => some "connection refused"

/-! ### Graph store: `CheckOrCreatePredicate` (database.go:255)

Per-iteration oracle: outcome of `CheckPredicate` (edge-existence query),
of `txn.Mutate` (edge insertion) and of `txn.Commit`.  The Go code never
reads the value returned by `txn.Commit`, which is why the oracle's `commit`
field is not consulted by the embedding. -/

structure PredOracle where
  check : Nat → Except String Bool
  mutate : Nat → Option String
  /-- Outcome of `txn.Commit` on iteration `i`.  `database.go:276` discards
  this value (`txn.Commit(*ctx)` as a statement), so it never influences the
  function's behaviour. -/
  commit : Nat → Option String

/-- Observable outcome of a `CheckOrCreatePredicate` run: the returned
error, the number of loop iterations executed, and the iteration numbers in
which an edge mutation was issued. -/
structure PredRun where
  err : Option String
  iters : Nat
  mutations : List Nat
deriving DecidableEq

/-- The `for !exists && attempts > 0` loop of `CheckOrCreatePredicate`:
a check error returns it; a check reporting the edge exists leaves `err`
nil and exits the loop; otherwise a mutation is issued, and a mutation
error is returned only when no attempts remain (`err != nil && attempts <=
0`), else the loop continues (the commit outcome is discarded). -/
def checkOrCreateLoop (o : PredOracle) : Nat → Nat → PredRun
  | 0, _ => ⟨none, 0, []⟩
  | attempts + 1, i =>
    match o.check i with
    | .error e => ⟨some e, 1, []⟩
    | .ok true => ⟨none, 1, []⟩
    | .ok false =>
      match o.mutate i with
      | some e =>
        if attempts = 0 then ⟨some e, 1, [i]⟩
        else
          let r := checkOrCreateLoop o attempts (i + 1)
          ⟨r.err, r.iters + 1, i :: r.mutations⟩
      | none =>
        let r := checkOrCreateLoop o attempts (i + 1)
        ⟨r.err, r.iters + 1, i :: r.mutations⟩

/-- `CheckOrCreatePredicate`: `attempts := 10`. -/
def CheckOrCreatePredicate (o : PredOracle) : PredRun :=
  checkOrCreateLoop o 10 0

/-- A run against a store where the edge never exists, every insertion is
accepted by `Mutate`, and every commit fails with a transient conflict: the
edge is never durably created, yet no error ever reaches the code. -/
def predCommitFailOracle : PredOracle where
  check := fun _ => .ok false
  mutate := fun _ => none
  commit := fun _ => some "Transaction has been aborted. Please retry."

/-! ### Graph store: `Create` (database.go:155) -/

def transientAbortMsg : String := "Transaction has been aborted. Please retry."

def transientOldMsg : String := "Transaction is too old"

/-- Does the first list start with the second? -/
def startsWithL : List Char → List Char → Bool
  | _, [] => true
  | [], _ :: _ => false
  | c :: cs, d :: ds => c == d && startsWithL cs ds

/-- Does the first list contain the second as a contiguous segment? -/
def hasInfixL : List Char → List Char → Bool
  | [], sub => sub.isEmpty
  | c :: cs, sub => startsWithL (c :: cs) sub || hasInfixL cs sub

/-- Go `strings.Contains`. -/
def goContains (s sub : String) : Bool := hasInfixL s.toList sub.toList

/-- `Create`, parameterised by the outcomes of its three sub-calls:
`FindOrCreateNode` on the page, `FindOrCreateNode` on the parent (consulted
only when a parent is present) and `CheckOrCreatePredicate` on the edge.
Go declares the named result `(err error)`; each bare `return` returns the
current value of `err`.  In particular, after the transient-conflict test
on the edge error, both the early `return` and the fall-through to the
final `return` still hold the edge error in `err`. -/
def Create (curRes : Except String String) (parentPresent : Bool)
    (parRes : Except String String) (predErr : Option String) : Option String :=
  match curRes with
  | .error e => some e
  | .ok _ =>
    if parentPresent then
      match parRes with
      | .error e => some e
      | .ok _ =>
        match predErr with
        | none => none
        | some e =>
          if !(goContains e transientAbortMsg) && !(goContains e transientOldMsg) then
            some e
          else
            some e
    else none

/-! ### Concurrent `FindOrCreateNode`: interleaving model (database.go:202)

The schema declares `url: string @index(exact) @upsert`, so dgraph's
optimistic concurrency control detects conflicting writes to the same url
index key at commit time: of two racing find-or-create transactions for one
url, at most one commit succeeds.  Each loop iteration of
`FindOrCreateNode` is one transaction (find, optionally create, commit), so
we model a system of N concurrent callers by atomic per-caller attempt
steps over a shared store:
* `found` — the transaction read an existing node and committed, the caller
  adopts its uid;
* `created` — no node with that url existed, the create committed, the
  caller adopts the freshly assigned uid;
* `conflicted` — the commit failed (another writer won the conflict check);
  nothing changes and the caller's loop retries.
-/

structure GNode where
  url : String
  uid : String
deriving DecidableEq

/-- One caller of `FindOrCreateNode`: the url it passes and the uid it has
returned (`none` while its loop is still running). -/
structure FocCaller where
  url : String
  result : Option String
deriving DecidableEq

structure FocSys where
  store : List GNode
  fresh : Nat
  callers : List FocCaller
deriving DecidableEq

/-- Uid minted by the store for the `n`-th created node; never empty. -/
def freshUid (n : Nat) : String := "0x" ++ toString n

inductive FocStep : FocSys → FocSys → Prop where
  | found (s : FocSys) (i : Nat) (c : FocCaller) (nd : GNode)
      (hc : s.callers.get? i = some c) (hr : c.result = none)
      (hf : s.store.find? (fun n => n.url == c.url) = some nd) :
      FocStep s ⟨s.store, s.fresh, s.callers.set i ⟨c.url, some nd.uid⟩⟩
  | created (s : FocSys) (i : Nat) (c : FocCaller)
      (hc : s.callers.get? i = some c) (hr : c.result = none)
      (hf : s.store.find? (fun n => n.url == c.url) = none) :
      FocStep s ⟨s.store ++ [⟨c.url, freshUid s.fresh⟩], s.fresh + 1,
                 s.callers.set i ⟨c.url, some (freshUid s.fresh)⟩⟩
  | conflicted (s : FocSys) (i : Nat) (c : FocCaller)
      (hc : s.callers.get? i = some c) (hr : c.result = none) :
      FocStep s s

/-- Reachability under any interleaving of caller attempts. -/
def FocReach : FocSys → FocSys → Prop := Relation.ReflTransGen FocStep

/-- `n` callers concurrently invoking `FindOrCreateNode` with the same url
against a store holding no node for it. -/
def focInit (u : String) (n : Nat) : FocSys :=
  ⟨[], 0, List.replicate n ⟨u, none⟩⟩

/-- Safety invariant of the interleaving model. -/
def FocInv (u : String) (s : FocSys) : Prop :=
  (∀ nd ∈ s.store, nd.uid ≠ "") ∧
  (s.store.map GNode.url).Nodup ∧
  s.callers ≠ [] ∧
  (∀ c ∈ s.callers, c.url = u) ∧
  (∀ c ∈ s.callers, ∀ r, c.result = some r → GNode.mk u r ∈ s.store)

/-! ### URL normaliser: model of `net/url` and `path.Clean` (page/page.go)

`ParseRelativeUrl` delegates to Go's standard library; the embedding models
the parts of `net/url.Parse`, `URL.String` and `path.Clean` (Go 1.14) that
its inputs can reach, over `List Char`:
* percent-escaping/unescaping is not modelled (escape-free strings parse and
  print identically in Go);
* host validation beyond structure and the `User`/`ForceQuery`/`Opaque`
  printing refinements of `URL.String` for schemeless URLs are not modelled
  (none are reachable from the claims);
* the control-character rejection of `parse` is modelled, giving `Parse` its
  failure mode. -/

structure GoUrl where
  scheme : List Char
  opaqueData : List Char
  host : List Char
  path : List Char
  query : List Char
  fragment : List Char
deriving DecidableEq

/-- Control bytes rejected by `net/url.parse` (`stringContainsCTLByte`). -/
def isCtl (c : Char) : Bool := c.toNat < 32 || c.toNat == 127

def isAlphaGo (c : Char) : Bool :=
  (97 ≤ c.toNat && c.toNat ≤ 122) || (65 ≤ c.toNat && c.toNat ≤ 90)

def isDigitGo (c : Char) : Bool := 48 ≤ c.toNat && c.toNat ≤ 57

/-- Characters `getScheme` accepts after the leading letter. -/
def isSchemeChar (c : Char) : Bool :=
  isAlphaGo c || isDigitGo c || c == '+' || c == '-' || c == '.'

def toLowerPairs : List (Char × Char) :=
  [('A', 'a'), ('B', 'b'), ('C', 'c'), ('D', 'd'), ('E', 'e'), ('F', 'f'),
   ('G', 'g'), ('H', 'h'), ('I', 'i'), ('J', 'j'), ('K', 'k'), ('L', 'l'),
   ('M', 'm'), ('N', 'n'), ('O', 'o'), ('P', 'p'), ('Q', 'q'), ('R', 'r'),
   ('S', 's'), ('T', 't'), ('U', 'u'), ('V', 'v'), ('W', 'w'), ('X', 'x'),
   ('Y', 'y'), ('Z', 'z')]

/-- ASCII lower-casing as applied by `strings.ToLower` to scheme names
(scheme characters are ASCII). -/
def toLowerGo (c : Char) : Char :=
  ((toLowerPairs.find? (fun p => p.1 == c)).map Prod.snd).getD c

def toLowerL (l : List Char) : List Char := l.map toLowerGo

/-- Go `split(s, sep, true)`: the part before the first `sep` and the part
after it (`(s, "")` when `sep` does not occur). -/
def splitCut (sep : Char) : List Char → List Char × List Char
  | [] => ([], [])
  | c :: cs =>
    if c == sep then ([], cs)
    else
      let r := splitCut sep cs
      (c :: r.1, r.2)

/-- Go `split(s, sep, false)`: the part before the first `sep` and the rest
including `sep` itself (`(s, "")` when `sep` does not occur). -/
def splitKeep (sep : Char) : List Char → List Char × List Char
  | [] => ([], [])
  | c :: cs =>
    if c == sep then ([], c :: cs)
    else
      let r := splitKeep sep cs
      (c :: r.1, r.2)

/-- `getScheme` scan after a leading letter: scheme characters up to a `:`
give a scheme; any other character (or the end) means no scheme at all. -/
def getSchemeLoop (orig : List Char) (acc : List Char) : List Char → List Char × List Char
  | [] => ([], orig)
  | c :: cs =>
    if c == ':' then (acc.reverse, cs)
    else if isSchemeChar c then getSchemeLoop orig (c :: acc) cs
    else ([], orig)

/-- `net/url.getScheme`: `none` is the "missing protocol scheme" error (a
leading `:`); otherwise the (possibly empty) scheme and the remainder. -/
def getScheme (l : List Char) : Option (List Char × List Char) :=
  match l with
  | [] => some ([], [])
  | c :: cs =>
    if c == ':' then none
    else if isAlphaGo c then some (getSchemeLoop (c :: cs) [c] cs)
    else some ([], c :: cs)

/-- `parseAuthority` host extraction: the part after the last `@`
(userinfo itself is not retained by the claims' URLs and is dropped). -/
def dropUserinfo (l : List Char) : List Char :=
  (l.reverse.takeWhile (fun c => !(c == '@'))).reverse

/-- `net/url.parse` (viaRequest = false) on a fragment-free input: scheme,
query split, then either the `//authority` form, a rooted path, an opaque
remainder (rootless path with a scheme) or the colon-in-first-segment
error. -/
def parseCore (l : List Char) : Option GoUrl :=
  match getScheme l with
  | none => none
  | some (schemeRaw, rest0) =>
    let scheme := toLowerL schemeRaw
    let (rest1, query) := splitCut '?' rest0
    match rest1 with
    | [] => some ⟨scheme, [], [], [], query, []⟩
    | c :: cs =>
      if c == '/' then
        match cs with
        | c2 :: cs2 =>
          if c2 == '/' then
            let (auth, rest2) := splitKeep '/' cs2
            some ⟨scheme, [], dropUserinfo auth, rest2, query, []⟩
          else some ⟨scheme, [], [], c :: cs, query, []⟩
        | [] => some ⟨scheme, [], [], ['/'], query, []⟩
      else if scheme ≠ [] then some ⟨scheme, c :: cs, [], [], query, []⟩
      else
        let seg := (splitKeep '/' (c :: cs)).1
        if seg.contains ':' then none
        else some ⟨scheme, [], [], c :: cs, query, []⟩

/-- `net/url.Parse`: split the fragment at the first `#`, reject control
bytes, parse the remainder, attach the fragment. -/
def parseUrl (s : String) : Option GoUrl :=
  let (before, frag) := splitCut '#' s.toList
  if before.any isCtl then none
  else (parseCore before).map (fun u => { u with fragment := frag })

/-- Split a list at every `/` (`strings.Split`-style; used to iterate the
segments of a path). -/
def splitSegs : List Char → List (List Char)
  | [] => [[]]
  | c :: cs =>
    let r := splitSegs cs
    if c == '/' then [] :: r
    else
      match r with
      | s :: rest => (c :: s) :: rest
      | [] => [[c]]

/-- Segment-stack pass of `path.Clean`: empty and `.` segments are
dropped, `..` pops the last kept segment (and is dropped at the root),
anything else is kept. -/
def cleanSegs (stack : List (List Char)) : List (List Char) → List (List Char)
  | [] => stack.reverse
  | seg :: rest =>
    if seg = [] || seg = ['.'] then cleanSegs stack rest
    else if seg = ['.', '.'] then cleanSegs stack.tail rest
    else cleanSegs (seg :: stack) rest

/-- `path.Clean` restricted to rooted inputs (the call site always passes
`"/" + relativeUrl`): the result is rooted, has no empty/`.`/`..` segment
and no trailing slash. -/
def pathCleanRooted (l : List Char) : List Char :=
  '/' :: List.intercalate ['/'] (cleanSegs [] (splitSegs l))

/-- `net/url.URL.String` for the URL shapes reachable here: `scheme:`,
then the opaque part or `//host` plus the path, then `?query` and
`#fragment` when nonempty. -/
def urlStringL (u : GoUrl) : List Char :=
  (if u.scheme ≠ [] then u.scheme ++ [':'] else []) ++
  (if u.opaqueData ≠ [] then u.opaqueData
   else
     (if u.scheme ≠ [] ∨ u.host ≠ [] then
        (if u.host ≠ [] ∨ u.path ≠ [] then ['/', '/'] else []) ++ u.host
      else []) ++
     (if u.path ≠ [] ∧ u.path.head? ≠ some '/' ∧ u.host ≠ [] then ['/'] else []) ++
     u.path) ++
  (if u.query ≠ [] then '?' :: u.query else []) ++
  (if u.fragment ≠ [] then '#' :: u.fragment else [])

def UrlString (u : GoUrl) : String := String.mk (urlStringL u)

/-- Host characters: not `/`, `?`, `#` or `@` (what the url parser
guarantees about a host it has extracted). -/
def HostOk (host : List Char) : Prop :=
  ∀ x ∈ host, (x == '/') = false ∧ (x == '?') = false ∧
    (x == '#') = false ∧ (x == '@') = false

/-- Scheme shape: a lower-cased fixed point that is empty or a letter
followed by scheme characters (what the url parser guarantees about a
scheme it has extracted). -/
def SchemeOk (scheme : List Char) : Prop :=
  toLowerL scheme = scheme ∧
  (scheme = [] ∨ ∃ c cs, scheme = c :: cs ∧ isAlphaGo c = true ∧
    ∀ x ∈ cs, isSchemeChar x = true)

/-- `ParseRelativeUrl` (page.go:74): parse the root, rebuild
`scheme://host` + `path.Clean("/"+relativeUrl)`, parse that, blank the
fragment; `none` when either parse fails. -/
def ParseRelativeUrl (rootUrl relativeUrl : String) : Option GoUrl :=
  match parseUrl rootUrl with
  | none => none
  | some parsedRootUrl =>
    match parseUrl (String.mk (parsedRootUrl.scheme ++ [':', '/', '/'] ++
        parsedRootUrl.host ++ pathCleanRooted ('/' :: relativeUrl.toList))) with
    | none => none
    | some absoluteUrl => some { absoluteUrl with fragment := [] }

/-! ### URL normaliser: `IsRelativeUrl` (page.go:87)

`IsRelativeUrl` runs `regexp.MatchString("^(?:[a-zA-Z]+:)?//", href)`.  We
embed the regular expression itself (`[a-zA-Z]` as the alternation of its
52 letters, `x+` as `x · x*`, `(?:x)?` as `x + ε`) and Go's `MatchString`
as "some prefix of the input matches", which is what an `^`-anchored
pattern matches in RE2. -/

def alphaChars : List Char :=
  ['a', 'b', 'c', 'd', 'e', 'f', 'g', 'h', 'i', 'j', 'k', 'l', 'm',
   'n', 'o', 'p', 'q', 'r', 's', 't', 'u', 'v', 'w', 'x', 'y', 'z',
   'A', 'B', 'C', 'D', 'E', 'F', 'G', 'H', 'I', 'J', 'K', 'L', 'M',
   'N', 'O', 'P', 'Q', 'R', 'S', 'T', 'U', 'V', 'W', 'X', 'Y', 'Z']

def bigAlt : List Char → RegularExpression Char
  | [] => 0
  | c :: cs => RegularExpression.char c + bigAlt cs

/-- The character class `[a-zA-Z]`. -/
def alphaRE : RegularExpression Char := bigAlt alphaChars

/-- The pattern `^(?:[a-zA-Z]+:)?//` (the `^` anchor is the prefix-match
mode of `matchFromStart` below). -/
def goHrefPattern : RegularExpression Char :=
  (alphaRE * alphaRE.star * RegularExpression.char ':' + 1) *
    (RegularExpression.char '/' * RegularExpression.char '/')

/-- Does some prefix of the input match the pattern?  This is
`regexp.MatchString` for an `^`-anchored pattern. -/
def matchFromStart (P : RegularExpression Char) : List Char → Bool
  | [] => P.matchEpsilon
  | c :: cs => P.matchEpsilon || matchFromStart (P.deriv c) cs

/-- `IsRelativeUrl` (page.go:87): the negation of the match. -/
def IsRelativeUrl (href : String) : Bool :=
  !(matchFromStart goHrefPattern href.toList)

/-- The claim's reading of the pattern: the href starts with `//`, or with
a nonempty alphabetic scheme, a colon and `//`. -/
def MatchesAbsolutePattern (l : List Char) : Prop :=
  (∃ t, l = '/' :: '/' :: t) ∨
  (∃ s t, s ≠ [] ∧ (∀ c ∈ s, isAlphaGo c = true) ∧ l = s ++ ':' :: '/' :: '/' :: t)

/-! ### Page expander: `FetchChildPages` (page.go:27)

The HTTP response is an oracle value: content type, the full byte content
of the response stream, and the `href` attribute of each `<a>` element of
the parsed document in document order (`none` when the attribute is
absent).  `parseHtml` (page.go:64) feeds `resp.Body` to
`goquery.NewDocumentFromReader`, which reads the stream to EOF to parse it;
the `ioutil.ReadAll(resp.Body)` that follows therefore returns the unread
remainder of the stream — no bytes — so the `body` string it produces is
empty whatever the content was. -/

def isAlnumGo (c : Char) : Bool := isAlphaGo c || isDigitGo c

/-- The regex `(\.html$)`: the href ends in `.html`. -/
def endsWithHtml (l : List Char) : Bool :=
  match l.reverse with
  | 'l' :: 'm' :: 't' :: 'h' :: '.' :: _ => true
  | _ => false

/-- The regex `(\.[a-zA-Z0-9]+$)`: a dot followed by one or more
alphanumerics at the end of the href (the maximal trailing alphanumeric
run is nonempty and preceded by a dot). -/
def hasExtension (l : List Char) : Bool :=
  let r := l.reverse
  let run := r.takeWhile isAlnumGo
  !run.isEmpty && ((r.drop run.length).head? == some '.')

/-- `IsRelativeHtml` (page.go:92). -/
def IsRelativeHtml (href : String) : Bool :=
  if endsWithHtml href.toList then true
  else !(hasExtension href.toList)

/-- Go `strings.TrimRight(s, "/")`. -/
def trimRightSlash (s : String) : String :=
  String.mk ((s.toList.reverse.dropWhile (fun c => c == '/')).reverse)

structure HttpResponse where
  contentType : String
  /-- The full byte content of the response stream. -/
  content : String
  /-- `href` attribute of each `<a>` element of the parsed document. -/
  anchorHrefs : List (Option String)

inductive FetchResult where
  /-- `http.Get` failed; `(nil, err)` is returned. -/
  | httpError (e : String)
  /-- Normal return with these children. -/
  | pages (children : List Page)
  /-- `ParseRelativeUrl` returned nil and `absoluteUrl.Path` dereferenced
  a nil pointer. -/
  | panicked

/-- The `doc.Find("a").Each` loop of `FetchChildPages`: hrefs that are
present, relative, HTML-like and nonempty are resolved; resolved paths
already seen in this pass are skipped; survivors become children with the
trimmed url, `depth - 1` and the `body` produced by `parseHtml`. -/
def fetchLoop (pageUrl : String) (pageDepth : Int) (body : String)
    (localProcessed : List (List Char)) (acc : List Page) :
    List (Option String) → FetchResult
  | [] => .pages acc
  | href? :: rest =>
    match href? with
    | none => fetchLoop pageUrl pageDepth body localProcessed acc rest
    | some href =>
      if IsRelativeUrl href && IsRelativeHtml href && !(href == "") then
        match ParseRelativeUrl pageUrl href with
        | none => .panicked
        | some absoluteUrl =>
          if localProcessed.contains absoluteUrl.path then
            fetchLoop pageUrl pageDepth body localProcessed acc rest
          else
            fetchLoop pageUrl pageDepth body (absoluteUrl.path :: localProcessed)
              (acc ++ [Page.mk "" (trimRightSlash (UrlString absoluteUrl)) 0
                (pageDepth - 1) body none []]) rest
      else fetchLoop pageUrl pageDepth body localProcessed acc rest

/-- `parseHtml`'s `body` result: the remainder of the response stream after
the HTML parser consumed it, which is empty. -/
def parseHtmlBody (_content : String) : String := ""

/-- `FetchChildPages` (page.go:27). -/
def FetchChildPages (pageUrl : String) (pageDepth : Int)
    (resp : Except String HttpResponse) : FetchResult :=
  match resp with
  | .error e => .httpError e
  | .ok r =>
    if !(startsWithL r.contentType.toList "text/html".toList) then .pages []
    else fetchLoop pageUrl pageDepth (parseHtmlBody r.content) [] [] r.anchorHrefs

/-! ### Concrete data used by the theorems -/

/-- A decoded flattened query result: a root with two children, the first
of which has one grandchild. -/
def c5Flattened : JsonPage :=
  .mk "0x1" "root" 1
    [.mk "0x2" "childA" 2 [.mk "0x4" "grand" 4 []],
     .mk "0x3" "childB" 3 []]

/-- A store where the very first existence check reports the edge already
present. -/
def predExistsOracle : PredOracle where
  check := fun _ => .ok true
  mutate := fun _ => none
  commit := fun _ => none

/-! ## Theorems -/

/-! ### Graph codec -/

theorem setUid_timestamp (acc : JsonPage) (s : String) :
    (acc.setUid s).timestamp = acc.timestamp := by
  cases acc; rfl

theorem setUrl_timestamp (acc : JsonPage) (s : String) :
    (acc.setUrl s).timestamp = acc.timestamp := by
  cases acc; rfl

theorem setChildren_timestamp (acc : JsonPage) (cs : List JsonPage) :
    (acc.setChildren cs).timestamp = acc.timestamp := by
  cases acc; rfl

theorem unmarshalFields_timestamp_of_not_mem (fields : List (String × JVal))
    (acc : JsonPage) (h : "timestamp" ∉ fields.map Prod.fst) :
    (unmarshalFields fields acc).timestamp = acc.timestamp := by
  induction fields generalizing acc with
  | nil => rfl
  | cons f rest ih =>
    obtain ⟨k, v⟩ := f
    simp only [List.map_cons, List.mem_cons, not_or] at h
    obtain ⟨hk, hrest⟩ := h
    simp only [unmarshalFields]
    by_cases h1 : k = "uid"
    · rw [if_pos h1, ih _ hrest, setUid_timestamp]
    · rw [if_neg h1]
      by_cases h2 : k = "url"
      · rw [if_pos h2, ih _ hrest, setUrl_timestamp]
      · rw [if_neg h2, if_neg (fun hh => hk hh.symm)]
        by_cases h4 : k = "links"
        · rw [if_pos h4, ih _ hrest, setChildren_timestamp]
        · rw [if_neg h4, ih _ hrest]

theorem unmarshal_marshal_min (url : String) (ts : Int) :
    unmarshalJsonPage (marshalJsonPage (.mk "" url ts [])) = .mk "" url ts [] := by
  by_cases hu : url = "" <;> by_cases ht : ts = 0 <;>
    simp [marshalJsonPage, hu, ht, unmarshalJsonPage, unmarshalFields,
      JsonPage.setUrl, JsonPage.setTimestamp, JVal.asStr, JVal.asInt, List.isEmpty]

/-- C5 counterexample: the reconstruction of a root with two children, one
of which has one grandchild, has 4 total nodes, not 3 as the claim states. -/
theorem c5_counterexample_node_count :
    pageSize (ConvertToPage none c5Flattened) = 4 ∧
    pageSize (ConvertToPage none c5Flattened) ≠ 3 := by
  exact ⟨rfl, by decide⟩

/-- C5 (amended): `ConvertToPage` on a flattened result describing a root
with two children, one of which has one grandchild, reconstructs a tree of
depth 2 with exactly 4 total nodes (root, two children, one grandchild), in
which every child of the input appears exactly once in its parent's child
collection and every reconstructed child's parent back-reference carries
its reconstructed parent's identity. -/
theorem c5_tree_reconstruction :
    ConvertToPage none c5Flattened =
      Page.mk "0x1" "root" 1 0 "" none
        [Page.mk "0x2" "childA" 2 0 "" (some ("0x1", "root", 1))
           [Page.mk "0x4" "grand" 4 0 "" (some ("0x2", "childA", 2)) []],
         Page.mk "0x3" "childB" 3 0 "" (some ("0x1", "root", 1)) []] ∧
    pageSize (ConvertToPage none c5Flattened) = 4 ∧
    pageHeight (ConvertToPage none c5Flattened) = 2 ∧
    parentRefsOk (ConvertToPage none c5Flattened) = true ∧
    ((ConvertToPage none c5Flattened).children.map Page.url).count "childA" = 1 ∧
    ((ConvertToPage none c5Flattened).children.map Page.url).count "childB" = 1 ∧
    (((ConvertToPage none c5Flattened).children.map Page.children).map
      (fun l => l.map Page.url)) = [["grand"], []] := by
  exact ⟨rfl, rfl, rfl, rfl, by decide, by decide, rfl⟩

/-- C6 counterexample: a page with a nonempty uid does not get its uid back
from the round trip — `ConvertToJsonPage` never serialises the uid, so the
decoded uid is empty. -/
theorem c6_counterexample_uid_dropped :
    (DeserializePage (.obj [("result",
        .arr [SerializePage (Page.mk "0x1" "a" 5 0 "" none [])])])).map Page.uid
      = some "" ∧
    (Page.mk "0x1" "a" 5 0 "" none []).uid = "0x1" ∧ ("" : String) ≠ "0x1" := by
  exact ⟨rfl, rfl, by decide⟩

/-- C6 (amended): for every Page `p`, encoding `p` with
`ConvertToJsonPage`/`SerializePage` and decoding a single-node query
response containing exactly that node and no children yields a Page whose
url and timestamp equal `p`'s and whose child collection is empty, and
whose uid is empty — it equals `p`'s uid exactly when `p` was not yet
persisted (`ConvertToJsonPage` never serialises the uid). -/
theorem c6_roundtrip (p : Page) :
    DeserializePage (.obj [("result", .arr [SerializePage p])]) =
      some (Page.mk "" p.url p.timestamp 0 "" none []) := by
  simp [DeserializePage, jlookupLast, SerializePage, ConvertToJsonPage,
    unmarshal_marshal_min, ConvertToPage, convertChildren]

/-- C10: every field of `JsonPage` is marshalled with `omitempty`, so a
zero timestamp (or an empty url) is entirely absent from the emitted JSON
object, and a node object without a timestamp key decodes to timestamp 0 —
a zero timestamp is indistinguishable from an unset one on the wire and
after a round trip. -/
theorem c10_omitempty_zero_timestamp :
    (∀ p : Page, p.timestamp = 0 → "timestamp" ∉ jvalKeys (SerializePage p)) ∧
    (∀ p : Page, p.url = "" → "url" ∉ jvalKeys (SerializePage p)) ∧
    (∀ fields : List (String × JVal), "timestamp" ∉ fields.map Prod.fst →
      (unmarshalJsonPage (.obj fields)).timestamp = 0) := by
  refine ⟨?_, ?_, ?_⟩
  · intro p h
    by_cases hu : p.url = "" <;>
      simp [SerializePage, ConvertToJsonPage, marshalJsonPage, jvalKeys, h, hu,
        List.isEmpty]
  · intro p h
    by_cases ht : p.timestamp = 0 <;>
      simp [SerializePage, ConvertToJsonPage, marshalJsonPage, jvalKeys, h, ht,
        List.isEmpty]
  · intro fields h
    simpa [unmarshalJsonPage, JsonPage.timestamp] using
      unmarshalFields_timestamp_of_not_mem fields (.mk "" "" 0 []) h

theorem c10_omitempty_zero_timestamp_witness :
    ("timestamp" ∉ jvalKeys (SerializePage (Page.mk "" "a" 0 0 "" none []))) ∧
    ("url" ∉ jvalKeys (SerializePage (Page.mk "" "" 7 0 "" none []))) ∧
    (unmarshalJsonPage (.obj [("url", .str "a")])).timestamp = 0 :=
  ⟨c10_omitempty_zero_timestamp.1 _ rfl, c10_omitempty_zero_timestamp.2.1 _ rfl,
   c10_omitempty_zero_timestamp.2.2 _ (by decide)⟩

/-! ### Graph store -/

/-- C2: against a store whose every commit fails with a persistent
non-transient error, the `for uid == ""` loop of `FindOrCreateNode` never
inspects the commit error and never returns, for any amount of fuel — the
code has no retry bound and no error propagation after commit, contradicting
the claim. -/
theorem c2_find_or_create_loops_forever :
    ∀ fuel i, FindOrCreateNodeFuel focStuckOracle fuel i = .timeout := by
  intro fuel
  induction fuel with
  | zero => intro i; rfl
  | succ n ih => intro i; simpa [FindOrCreateNodeFuel, focStuckOracle] using ih (i + 1)

/-- C3: when both nodes were persisted and `CheckOrCreatePredicate` fails
with the transient "Transaction has been aborted" conflict, `Create`
returns that error rather than nil: the named return `err` is never reset,
so the fall-through `return` after the transient test still propagates it. -/
theorem c3_transient_edge_error_returned :
    Create (.ok "0x2") true (.ok "0x1") (some transientAbortMsg) =
      some transientAbortMsg ∧
    Create (.ok "0x2") true (.ok "0x1") (some transientAbortMsg) ≠ none := by
  exact ⟨rfl, by simp [Create, goContains]⟩

theorem checkOrCreateLoop_iters_le (o : PredOracle) :
    ∀ a i, (checkOrCreateLoop o a i).iters ≤ a := by
  intro a
  induction a with
  | zero => intro i; exact Nat.le_refl 0
  | succ n ih =>
    intro i
    simp only [checkOrCreateLoop]
    match o.check i with
    | .error _ => exact Nat.succ_le_succ (Nat.zero_le n)
    | .ok true => exact Nat.succ_le_succ (Nat.zero_le n)
    | .ok false =>
      match o.mutate i with
      | some _ =>
        by_cases hn : n = 0
        · simp only [hn, if_pos rfl]; exact Nat.le_refl 1
        · simp only [if_neg hn]; exact Nat.succ_le_succ (ih (i + 1))
      | none => exact Nat.succ_le_succ (ih (i + 1))

theorem checkOrCreateLoop_success (o : PredOracle) :
    ∀ j a i, j < a → o.check (i + j) = .ok true →
      (∀ k, k < j → o.check (i + k) = .ok false) →
      checkOrCreateLoop o a i = ⟨none, j + 1, List.range' i j⟩ := by
  intro j
  induction j with
  | zero =>
    intro a i ha htrue _
    obtain ⟨a', rfl⟩ := Nat.exists_eq_succ_of_ne_zero (Nat.pos_iff_ne_zero.mp ha)
    simp only [checkOrCreateLoop]
    rw [show i + 0 = i from rfl] at htrue
    rw [htrue]
    rfl
  | succ j' ih =>
    intro a i ha htrue hfalse
    obtain ⟨a', rfl⟩ := Nat.exists_eq_succ_of_ne_zero
      (Nat.pos_iff_ne_zero.mp (Nat.lt_of_le_of_lt (Nat.zero_le _) ha))
    have hfirst : o.check i = .ok false := by
      have := hfalse 0 (Nat.succ_pos j')
      simpa using this
    have ha' : j' < a' := Nat.lt_of_succ_lt_succ ha
    have htrue' : o.check ((i + 1) + j') = .ok true := by
      rw [show (i + 1) + j' = i + (j' + 1) by omega]; exact htrue
    have hfalse' : ∀ k, k < j' → o.check ((i + 1) + k) = .ok false := by
      intro k hk
      rw [show (i + 1) + k = i + (k + 1) by omega]
      exact hfalse (k + 1) (Nat.succ_lt_succ hk)
    have hrec := ih a' (i + 1) ha' htrue' hfalse'
    have ha'0 : ¬ a' = 0 := fun h => Nat.not_lt_zero j' (h ▸ ha')
    simp only [checkOrCreateLoop, hfirst]
    match o.mutate i with
    | some _ => simp only [if_neg ha'0, hrec, List.range']
    | none => simp only [hrec, List.range']

theorem checkOrCreateLoop_exhausted (o : PredOracle) :
    ∀ a i, 0 < a → (∀ k, k < a → o.check (i + k) = .ok false) →
      checkOrCreateLoop o a i = ⟨o.mutate (i + (a - 1)), a, List.range' i a⟩ := by
  intro a
  induction a with
  | zero => intro i h; exact absurd h (Nat.lt_irrefl 0)
  | succ a' ih =>
    intro i _ hfalse
    have hfirst : o.check i = .ok false := by simpa using hfalse 0 (Nat.succ_pos a')
    simp only [checkOrCreateLoop, hfirst]
    by_cases ha' : a' = 0
    · subst ha'
      match hm : o.mutate i with
      | some e => simp [checkOrCreateLoop, List.range', hm]
      | none => simp [checkOrCreateLoop, List.range', hm]
    · have hfalse' : ∀ k, k < a' → o.check ((i + 1) + k) = .ok false := by
        intro k hk
        rw [show (i + 1) + k = i + (k + 1) by omega]
        exact hfalse (k + 1) (Nat.succ_lt_succ hk)
      have hrec := ih (i + 1) (Nat.pos_of_ne_zero ha') hfalse'
      have hidx : (i + 1) + (a' - 1) = i + (a' + 1 - 1) := by omega
      match o.mutate i with
      | some _ =>
        simp only [if_neg ha', hrec, hidx, List.range']
      | none =>
        simp only [hrec, hidx, List.range']

/-- C4 counterexample: against a store where the edge never exists, every
insertion is accepted and every commit fails with a transient conflict, all
10 attempts are used, a mutation is issued in each, every commit fails —
the operation never succeeds — and yet `CheckOrCreatePredicate` returns no
error, because the value of `txn.Commit` is discarded.  The claim's "returns
the last error encountered" is false here. -/
theorem c4_counterexample_commit_error_lost :
    (CheckOrCreatePredicate predCommitFailOracle).err = none ∧
    (CheckOrCreatePredicate predCommitFailOracle).iters = 10 ∧
    (CheckOrCreatePredicate predCommitFailOracle).mutations =
      [0, 1, 2, 3, 4, 5, 6, 7, 8, 9] ∧
    predCommitFailOracle.commit 9 = some transientAbortMsg := by
  exact ⟨rfl, rfl, rfl, rfl⟩

/-- C4 (amended): `CheckOrCreatePredicate` performs at most 10 attempts; in
the first attempt whose existence check reports the edge present it returns
success immediately, the attempts before it being exactly the ones that
issued a mutation; and when all 10 attempts see a failing (absent) edge, it
returns the error of the *mutation* of the last attempt — commit errors are
discarded by the code, so exhaustion with failing commits alone returns
success (nil), not the last error encountered. -/
theorem c4_check_or_create_bounded (o : PredOracle) :
    (CheckOrCreatePredicate o).iters ≤ 10 ∧
    (∀ j, j < 10 → o.check j = .ok true → (∀ k, k < j → o.check k = .ok false) →
      CheckOrCreatePredicate o = ⟨none, j + 1, List.range' 0 j⟩) ∧
    ((∀ k, k < 10 → o.check k = .ok false) →
      CheckOrCreatePredicate o = ⟨o.mutate 9, 10, List.range' 0 10⟩) := by
  refine ⟨checkOrCreateLoop_iters_le o 10 0, ?_, ?_⟩
  · intro j hj htrue hfalse
    have := checkOrCreateLoop_success o j 10 0 hj (by simpa using htrue)
      (fun k hk => by simpa using hfalse k hk)
    simpa [CheckOrCreatePredicate] using this
  · intro hfalse
    have := checkOrCreateLoop_exhausted o 10 0 (by omega)
      (fun k hk => by simpa using hfalse k hk)
    simpa [CheckOrCreatePredicate] using this

theorem c4_check_or_create_bounded_witness :
    CheckOrCreatePredicate predExistsOracle = ⟨none, 1, []⟩ := by
  have := (c4_check_or_create_bounded predExistsOracle).2.1 0 (by omega) rfl
    (fun k hk => absurd hk (Nat.not_lt_zero k))
  simpa [List.range'] using this

/-! ### Concurrent find-or-create -/

theorem eq_of_nodup_map {α β : Type} (f : α → β) :
    ∀ (l : List α), (l.map f).Nodup → ∀ a ∈ l, ∀ b ∈ l, f a = f b → a = b := by
  intro l
  induction l with
  | nil => intro _ a ha; exact absurd ha (List.not_mem_nil a)
  | cons c cs ih =>
    intro hnd a ha b hb hf
    simp only [List.map_cons, List.nodup_cons] at hnd
    obtain ⟨hc, hnd'⟩ := hnd
    rcases List.mem_cons.mp ha with rfl | ha' <;> rcases List.mem_cons.mp hb with rfl | hb'
    · rfl
    · exact absurd (hf ▸ List.mem_map_of_mem f hb') hc
    · exact absurd (hf ▸ List.mem_map_of_mem f ha') hc
    · exact ih hnd' a ha' b hb' hf

theorem length_le_one_of_nodup_map {α β : Type} (f : α → β) (b : β) :
    ∀ (l : List α), (l.map f).Nodup → (∀ x ∈ l, f x = b) → l.length ≤ 1 := by
  intro l
  induction l with
  | nil => intro _ _; exact Nat.zero_le 1
  | cons c cs ih =>
    intro hnd hall
    simp only [List.map_cons, List.nodup_cons] at hnd
    obtain ⟨hc, _⟩ := hnd
    have hcs : cs = [] := by
      cases cs with
      | nil => rfl
      | cons d ds =>
        have hd : f d = b := hall d (List.mem_cons_of_mem c (List.mem_cons_self d ds))
        have hcb : f c = b := hall c (List.mem_cons_self c _)
        exact absurd ((hcb.trans hd.symm) ▸ List.mem_map_of_mem f (List.mem_cons_self d ds)) hc
    simp [hcs]

theorem freshUid_ne_empty (n : Nat) : freshUid n ≠ "" := by
  intro h
  have h2 := congrArg String.length h
  rw [freshUid, String.length_append, show ("0x" : String).length = 2 from rfl,
    show ("" : String).length = 0 from rfl] at h2
  omega

theorem focInv_init (u : String) (n : Nat) (hn : 0 < n) : FocInv u (focInit u n) := by
  refine ⟨?_, ?_, ?_, ?_, ?_⟩
  · intro nd hnd; exact absurd hnd (List.not_mem_nil nd)
  · exact List.nodup_nil
  · intro h
    have := congrArg List.length h
    simp [focInit] at this
    omega
  · intro c hc
    have := List.eq_of_mem_replicate hc
    rw [this]
  · intro c hc r hr
    have := List.eq_of_mem_replicate hc
    rw [this] at hr
    exact absurd hr (by simp)

theorem focInv_step {u : String} {s s' : FocSys} (hinv : FocInv u s)
    (hstep : FocStep s s') : FocInv u s' := by
  obtain ⟨h1, h2, h3, h4, h5⟩ := hinv
  cases hstep with
  | found i c nd hc hr hf =>
    have hcmem : c ∈ s.callers := List.get?_mem hc
    have hndmem : nd ∈ s.store := List.mem_of_find?_eq_some hf
    have hndurl : nd.url = c.url := by
      have := List.find?_some hf
      simpa using this
    have hcu : c.url = u := h4 c hcmem
    refine ⟨h1, h2, ?_, ?_, ?_⟩
    · intro h
      have := congrArg List.length h
      simp only [List.length_set] at this
      exact h3 (List.eq_nil_of_length_eq_zero this)
    · intro c' hc'
      rcases List.mem_or_eq_of_mem_set hc' with hm | rfl
      · exact h4 c' hm
      · exact hcu
    · intro c' hc' r hrr
      rcases List.mem_or_eq_of_mem_set hc' with hm | rfl
      · exact h5 c' hm r hrr
      · simp only at hrr
        obtain rfl : nd.uid = r := by simpa using hrr
        have : GNode.mk u nd.uid = nd := by
          cases nd with
          | mk nurl nuid => simp_all
        rw [this]
        exact hndmem
  | created i c hc hr hf =>
    have hcmem : c ∈ s.callers := List.get?_mem hc
    have hcu : c.url = u := h4 c hcmem
    have hnotin : ∀ nd ∈ s.store, nd.url ≠ c.url := by
      intro nd hnd heq
      have := List.find?_eq_none.mp hf nd hnd
      simp [heq] at this
    refine ⟨?_, ?_, ?_, ?_, ?_⟩
    · intro nd hnd
      simp only [List.mem_append, List.mem_singleton] at hnd
      rcases hnd with hm | rfl
      · exact h1 nd hm
      · exact freshUid_ne_empty s.fresh
    · simp only [List.map_append, List.map_cons, List.map_nil]
      rw [List.nodup_append]
      refine ⟨h2, List.nodup_singleton _, ?_⟩
      intro a ha
      simp only [List.mem_singleton]
      intro hab
      rw [hab] at ha
      obtain ⟨nd, hnd, hnd'⟩ := List.mem_map.mp ha
      exact hnotin nd hnd hnd'
    · intro h
      have := congrArg List.length h
      simp only [List.length_set] at this
      exact h3 (List.eq_nil_of_length_eq_zero this)
    · intro c' hc'
      rcases List.mem_or_eq_of_mem_set hc' with hm | rfl
      · exact h4 c' hm
      · exact hcu
    · intro c' hc' r hrr
      rcases List.mem_or_eq_of_mem_set hc' with hm | rfl
      · exact List.mem_append_left _ (h5 c' hm r hrr)
      · simp only at hrr
        obtain rfl : freshUid s.fresh = r := by simpa using hrr
        refine List.mem_append_right _ ?_
        simp [hcu]
  | conflicted i c hc hr => exact ⟨h1, h2, h3, h4, h5⟩

theorem focInv_reach {u : String} {s s' : FocSys} (hinv : FocInv u s)
    (hreach : FocReach s s') : FocInv u s' := by
  induction hreach with
  | refl => exact hinv
  | tail _ hstep ih => exact focInv_step ih hstep

/-- C1: in any interleaving of N concurrent callers of `FindOrCreateNode`
with the same url (sequential repetition being one such interleaving), once
every call has returned, all of them have returned one and the same
non-empty uid and the store holds exactly one node with that url.  The
conflict detection of the `@upsert` url index makes each loop iteration an
atomic find/create/commit attempt whose commit fails under interference,
which is what the step relation models. -/
theorem c1_find_or_create_idempotent (u : String) (n : Nat) (s' : FocSys)
    (hn : 0 < n) (hreach : FocReach (focInit u n) s')
    (hdone : ∀ c ∈ s'.callers, c.result ≠ none) :
    ∃ uid, uid ≠ "" ∧ (∀ c ∈ s'.callers, c.result = some uid) ∧
      (s'.store.filter (fun nd => nd.url == u)).length = 1 := by
  have hinv := focInv_reach (focInv_init u n hn) hreach
  obtain ⟨h1, h2, h3, h4, h5⟩ := hinv
  obtain ⟨c0, hc0⟩ := List.exists_mem_of_ne_nil s'.callers h3
  obtain ⟨r0, hr0⟩ := Option.ne_none_iff_exists'.mp (hdone c0 hc0)
  have hnode0 : GNode.mk u r0 ∈ s'.store := h5 c0 hc0 r0 hr0
  refine ⟨r0, ?_, ?_, ?_⟩
  · have := h1 _ hnode0
    simpa using this
  · intro c hc
    obtain ⟨r, hr⟩ := Option.ne_none_iff_exists'.mp (hdone c hc)
    have hnode : GNode.mk u r ∈ s'.store := h5 c hc r hr
    have := eq_of_nodup_map GNode.url s'.store h2 _ hnode _ hnode0 rfl
    have hru : r = r0 := by
      have := congrArg GNode.uid this
      simpa using this
    rw [hr, hru]
  · have hmemf : GNode.mk u r0 ∈ s'.store.filter (fun nd => nd.url == u) :=
      List.mem_filter_of_mem hnode0 (by simp)
    have hle : (s'.store.filter (fun nd => nd.url == u)).length ≤ 1 := by
      refine length_le_one_of_nodup_map GNode.url u _ ?_ ?_
      · exact (List.filter_sublist s'.store).map GNode.url |>.nodup h2
      · intro x hx
        have := List.of_mem_filter hx
        simpa using this
    have hpos : 0 < (s'.store.filter (fun nd => nd.url == u)).length :=
      List.length_pos_of_mem hmemf
    omega

theorem c1_find_or_create_idempotent_witness :
    ∃ uid, uid ≠ "" ∧
      (∀ c ∈ (⟨[⟨"u", "0x0"⟩], 1,
          [⟨"u", some "0x0"⟩, ⟨"u", some "0x0"⟩]⟩ : FocSys).callers,
        c.result = some uid) ∧
      ((⟨[⟨"u", "0x0"⟩], 1,
          [⟨"u", some "0x0"⟩, ⟨"u", some "0x0"⟩]⟩ : FocSys).store.filter
        (fun nd => nd.url == "u")).length = 1 := by
  refine c1_find_or_create_idempotent "u" 2 _ (by omega) ?_ (by decide)
  have st1 : FocStep (focInit "u" 2)
      ⟨[⟨"u", "0x0"⟩], 1, [⟨"u", some "0x0"⟩, ⟨"u", none⟩]⟩ :=
    FocStep.created (focInit "u" 2) 0 ⟨"u", none⟩ rfl rfl rfl
  have st2 : FocStep (⟨[⟨"u", "0x0"⟩], 1,
        [⟨"u", some "0x0"⟩, ⟨"u", none⟩]⟩ : FocSys)
      ⟨[⟨"u", "0x0"⟩], 1, [⟨"u", some "0x0"⟩, ⟨"u", some "0x0"⟩]⟩ :=
    FocStep.found _ 1 ⟨"u", none⟩ ⟨"u", "0x0"⟩ rfl rfl rfl
  exact Relation.ReflTransGen.tail (Relation.ReflTransGen.single st1) st2

/-! ### Page expander -/

theorem fetchLoop_child_shape (pageUrl : String) (pageDepth : Int) (body : String) :
    ∀ (hrefs : List (Option String)) (processed : List (List Char))
      (acc cs : List Page),
      fetchLoop pageUrl pageDepth body processed acc hrefs = .pages cs →
      (∀ c ∈ acc, c.depth = pageDepth - 1 ∧ c.body = body ∧
        ∃ href absoluteUrl, ParseRelativeUrl pageUrl href = some absoluteUrl ∧
          c.url = trimRightSlash (UrlString absoluteUrl)) →
      ∀ c ∈ cs, c.depth = pageDepth - 1 ∧ c.body = body ∧
        ∃ href absoluteUrl, ParseRelativeUrl pageUrl href = some absoluteUrl ∧
          c.url = trimRightSlash (UrlString absoluteUrl) := by
  intro hrefs
  induction hrefs with
  | nil =>
    intro processed acc cs hrun hacc
    simp only [fetchLoop, FetchResult.pages.injEq] at hrun
    exact hrun ▸ hacc
  | cons href? rest ih =>
    intro processed acc cs hrun hacc
    match href? with
    | none => exact ih processed acc cs hrun hacc
    | some href =>
      simp only [fetchLoop] at hrun
      by_cases hcond : (IsRelativeUrl href && IsRelativeHtml href && !(href == "")) = true
      · rw [if_pos hcond] at hrun
        match hparse : ParseRelativeUrl pageUrl href with
        | none => rw [hparse] at hrun; exact absurd hrun (by simp)
        | some absoluteUrl =>
          simp only [hparse] at hrun
          by_cases hseen : processed.contains absoluteUrl.path = true
          · rw [if_pos hseen] at hrun
            exact ih processed acc cs hrun hacc
          · rw [if_neg hseen] at hrun
            refine ih _ _ cs hrun ?_
            intro c hc
            rcases List.mem_append.mp hc with hm | hm
            · exact hacc c hm
            · obtain rfl := List.mem_singleton.mp hm
              exact ⟨rfl, rfl, href, absoluteUrl, hparse, rfl⟩
      · rw [if_neg hcond] at hrun
        exact ih processed acc cs hrun hacc

/-- Every child produced by a successful HTML fetch has the decremented
depth, the trailing-slash-trimmed resolved url — and the `body` computed by
`parseHtml`, which is the empty unread remainder of the response stream,
not the fetched content. -/
theorem fetchChildPages_child_shape (pageUrl : String) (pageDepth : Int)
    (r : HttpResponse) (cs : List Page)
    (hrun : FetchChildPages pageUrl pageDepth (.ok r) = .pages cs) :
    ∀ c ∈ cs, c.depth = pageDepth - 1 ∧ c.body = "" ∧
      ∃ href absoluteUrl, ParseRelativeUrl pageUrl href = some absoluteUrl ∧
        c.url = trimRightSlash (UrlString absoluteUrl) := by
  simp only [FetchChildPages] at hrun
  by_cases hct : (!(startsWithL r.contentType.toList "text/html".toList)) = true
  · rw [if_pos hct] at hrun
    obtain rfl : ([] : List Page) = cs := by simpa using hrun
    intro c hc
    exact absurd hc (List.not_mem_nil c)
  · rw [if_neg hct] at hrun
    exact fetchLoop_child_shape pageUrl pageDepth (parseHtmlBody r.content)
      r.anchorHrefs [] [] cs hrun (fun c hc => absurd hc (List.not_mem_nil c))

/-- C9: at a successful HTML fetch of nonempty content with one relative
link, the child's `Depth` is `page.Depth - 1` and its `Url` is the resolved
absolute URL (trailing slash trimmed) as claimed, but its `Body` is the
empty string, not the just-fetched content: `parseHtml` runs
`ioutil.ReadAll(resp.Body)` only after `goquery.NewDocumentFromReader` has
consumed the response stream to EOF, so no bytes remain to be read. -/
theorem c9_child_body_empty :
    FetchChildPages "http://example.edu" 3
        (.ok ⟨"text/html; charset=utf-8", "<a href=\"test\"></a>", [some "test"]⟩) =
      .pages [Page.mk "" "http://example.edu/test" 0 2 "" none []] ∧
    ("<a href=\"test\"></a>" : String) ≠ "" := by
  exact ⟨rfl, by decide⟩

/-! ### URL normaliser: `IsRelativeUrl` -/

theorem matchFromStart_iff (P : RegularExpression Char) (l : List Char) :
    matchFromStart P l = true ↔ ∃ t u, l = t ++ u ∧ P.rmatch t = true := by
  induction l generalizing P with
  | nil =>
    simp only [matchFromStart]
    constructor
    · intro h; exact ⟨[], [], rfl, h⟩
    · rintro ⟨t, u, htu, hm⟩
      obtain rfl : t = [] := (List.append_eq_nil.mp htu.symm).1
      exact hm
  | cons c cs ih =>
    simp only [matchFromStart, Bool.or_eq_true]
    constructor
    · rintro (h | h)
      · exact ⟨[], c :: cs, rfl, h⟩
      · obtain ⟨t, u, htu, hm⟩ := (ih (P.deriv c)).mp h
        exact ⟨c :: t, u, by simp [htu], hm⟩
    · rintro ⟨t, u, htu, hm⟩
      cases t with
      | nil => exact Or.inl hm
      | cons c' t' =>
        obtain ⟨rfl, hcs⟩ : c = c' ∧ cs = t' ++ u := by simpa using htu
        exact Or.inr ((ih (P.deriv c)).mpr ⟨t', u, hcs, hm⟩)

theorem bigAlt_rmatch (cs : List Char) (x : List Char) :
    (bigAlt cs).rmatch x = true ↔ ∃ c, c ∈ cs ∧ x = [c] := by
  induction cs with
  | nil =>
    simp [bigAlt, RegularExpression.zero_rmatch]
  | cons c cs ih =>
    rw [bigAlt, RegularExpression.add_rmatch_iff]
    rw [RegularExpression.char_rmatch_iff, ih]
    constructor
    · rintro (rfl | ⟨d, hd, rfl⟩)
      · exact ⟨c, List.mem_cons_self c cs, rfl⟩
      · exact ⟨d, List.mem_cons_of_mem c hd, rfl⟩
    · rintro ⟨d, hd, rfl⟩
      rcases List.mem_cons.mp hd with rfl | hd'
      · exact Or.inl rfl
      · exact Or.inr ⟨d, hd', rfl⟩

theorem mem_alphaChars_iff (c : Char) : c ∈ alphaChars ↔ isAlphaGo c = true := by
  constructor
  · intro h
    fin_cases h <;> decide
  · intro h
    rw [← Char.ofNat_toNat c]
    simp only [isAlphaGo, Bool.or_eq_true, Bool.and_eq_true, decide_eq_true_eq] at h
    set n := c.toNat with hn
    rcases h with ⟨h1, h2⟩ | ⟨h1, h2⟩ <;> interval_cases n <;> decide

theorem alphaRE_rmatch (x : List Char) :
    alphaRE.rmatch x = true ↔ ∃ c, isAlphaGo c = true ∧ x = [c] := by
  rw [alphaRE, bigAlt_rmatch]
  constructor
  · rintro ⟨c, hc, rfl⟩
    exact ⟨c, (mem_alphaChars_iff c).mp hc, rfl⟩
  · rintro ⟨c, hc, rfl⟩
    exact ⟨c, (mem_alphaChars_iff c).mpr hc, rfl⟩

theorem eq_flatten_map_singleton (x : List Char) :
    x = (x.map (fun c => [c])).flatten := by
  induction x with
  | nil => rfl
  | cons c cs ihx =>
    simp only [List.map_cons, List.flatten_cons, List.singleton_append]
    exact congrArg (List.cons c) ihx

theorem alphaStar_rmatch (x : List Char) :
    (alphaRE.star).rmatch x = true ↔ ∀ c ∈ x, isAlphaGo c = true := by
  rw [RegularExpression.star_rmatch_iff]
  constructor
  · rintro ⟨S, rfl, hS⟩
    intro c hc
    obtain ⟨t, htS, hct⟩ := List.mem_flatten.mp hc
    obtain ⟨d, hd, rfl⟩ := (alphaRE_rmatch t).mp (hS t htS).2
    obtain rfl := List.mem_singleton.mp hct
    exact hd
  · intro h
    refine ⟨x.map (fun c => [c]), eq_flatten_map_singleton x, ?_⟩
    intro t ht
    obtain ⟨c, hc, rfl⟩ := List.mem_map.mp ht
    exact ⟨by simp, (alphaRE_rmatch [c]).mpr ⟨c, h c hc, rfl⟩⟩

theorem slashSlash_rmatch (x : List Char) :
    (RegularExpression.char '/' * RegularExpression.char '/').rmatch x = true ↔
      x = ['/', '/'] := by
  rw [RegularExpression.mul_rmatch_iff]
  constructor
  · rintro ⟨t, u, rfl, ht, hu⟩
    rw [RegularExpression.char_rmatch_iff] at ht hu
    rw [ht, hu]
    rfl
  · rintro rfl
    exact ⟨['/'], ['/'], rfl, (RegularExpression.char_rmatch_iff _ _).mpr rfl,
      (RegularExpression.char_rmatch_iff _ _).mpr rfl⟩

theorem scheme_rmatch (x : List Char) :
    ((alphaRE * alphaRE.star) * RegularExpression.char ':').rmatch x = true ↔
      ∃ s, s ≠ [] ∧ (∀ c ∈ s, isAlphaGo c = true) ∧ x = s ++ [':'] := by
  rw [RegularExpression.mul_rmatch_iff]
  constructor
  · rintro ⟨t, u, rfl, ht, hu⟩
    rw [RegularExpression.char_rmatch_iff] at hu
    obtain ⟨t1, t2, rfl, h1, h2⟩ := (RegularExpression.mul_rmatch_iff _ _ _).mp ht
    obtain ⟨c, hc, rfl⟩ := (alphaRE_rmatch t1).mp h1
    have h2' := (alphaStar_rmatch t2).mp h2
    refine ⟨c :: t2, by simp, ?_, by rw [hu]; simp⟩
    intro d hd
    rcases List.mem_cons.mp hd with rfl | hd'
    · exact hc
    · exact h2' d hd'
  · rintro ⟨s, hne, hall, rfl⟩
    cases s with
    | nil => exact absurd rfl hne
    | cons c s' =>
      refine ⟨c :: s', [':'], by simp, ?_, (RegularExpression.char_rmatch_iff _ _).mpr rfl⟩
      refine (RegularExpression.mul_rmatch_iff _ _ _).mpr
        ⟨[c], s', rfl, (alphaRE_rmatch [c]).mpr ⟨c, hall c (List.mem_cons_self c s'), rfl⟩, ?_⟩
      exact (alphaStar_rmatch s').mpr (fun d hd => hall d (List.mem_cons_of_mem c hd))

theorem goHrefPattern_rmatch (t : List Char) :
    goHrefPattern.rmatch t = true ↔
      t = ['/', '/'] ∨
      ∃ s, s ≠ [] ∧ (∀ c ∈ s, isAlphaGo c = true) ∧ t = s ++ [':', '/', '/'] := by
  rw [goHrefPattern, RegularExpression.mul_rmatch_iff]
  constructor
  · rintro ⟨a, b, rfl, ha, hb⟩
    rw [slashSlash_rmatch] at hb
    rcases (RegularExpression.add_rmatch_iff _ _ _).mp ha with hs | he
    · obtain ⟨s, hne, hall, rfl⟩ := (scheme_rmatch a).mp hs
      exact Or.inr ⟨s, hne, hall, by rw [hb]; simp⟩
    · rw [RegularExpression.one_rmatch_iff] at he
      rw [he, hb]
      exact Or.inl rfl
  · rintro (rfl | ⟨s, hne, hall, rfl⟩)
    · refine ⟨[], ['/', '/'], rfl, ?_, (slashSlash_rmatch _).mpr rfl⟩
      exact (RegularExpression.add_rmatch_iff _ _ _).mpr
        (Or.inr ((RegularExpression.one_rmatch_iff _).mpr rfl))
    · refine ⟨s ++ [':'], ['/', '/'], by simp, ?_, (slashSlash_rmatch _).mpr rfl⟩
      exact (RegularExpression.add_rmatch_iff _ _ _).mpr
        (Or.inl ((scheme_rmatch _).mpr ⟨s, hne, hall, rfl⟩))

/-- C8: `IsRelativeUrl h` is false exactly when `h` matches the anchored
pattern `^(?:[a-zA-Z]+:)?//` — that is, when `h` starts with `//` or with a
nonempty alphabetic scheme, `:` and `//` — and the four example hrefs
behave as stated. -/
theorem c8_is_relative_url :
    (∀ href : String, IsRelativeUrl href = false ↔ MatchesAbsolutePattern href.toList) ∧
    IsRelativeUrl "http://example.edu" = false ∧
    IsRelativeUrl "//cdn.example.edu/lib.js" = false ∧
    IsRelativeUrl "/myfolder/test.txt" = true ∧
    IsRelativeUrl "test" = true := by
  refine ⟨?_, rfl, rfl, rfl, rfl⟩
  intro href
  have hb : IsRelativeUrl href = false ↔
      matchFromStart goHrefPattern href.toList = true := by
    rw [IsRelativeUrl]
    cases h : matchFromStart goHrefPattern href.toList <;> simp [h]
  rw [hb, matchFromStart_iff]
  constructor
  · rintro ⟨t, u, htu, hm⟩
    rcases (goHrefPattern_rmatch t).mp hm with rfl | ⟨s, hne, hall, rfl⟩
    · exact Or.inl ⟨u, by simpa using htu⟩
    · refine Or.inr ⟨s, u, hne, hall, ?_⟩
      rw [htu]
      simp
  · rintro (⟨t, ht⟩ | ⟨s, t, hne, hall, hl⟩)
    · exact ⟨['/', '/'], t, by simpa using ht, (goHrefPattern_rmatch _).mpr (Or.inl rfl)⟩
    · refine ⟨s ++ [':', '/', '/'], t, ?_, (goHrefPattern_rmatch _).mpr (Or.inr ⟨s, hne, hall, rfl⟩)⟩
      rw [hl]
      simp

theorem c8_is_relative_url_witness :
    MatchesAbsolutePattern ("//cdn.example.edu/lib.js" : String).toList :=
  (c8_is_relative_url.1 "//cdn.example.edu/lib.js").mp rfl

/-! ### URL normaliser: `ParseRelativeUrl` -/

theorem schemeChar_of_alpha (c : Char) (h : isAlphaGo c = true) : isSchemeChar c = true := by
  simp [isSchemeChar, h]

theorem schemeChar_not_special (x : Char) (h : isSchemeChar x = true) :
    (x == ':') = false ∧ (x == '/') = false ∧ (x == '?') = false ∧
    (x == '#') = false ∧ (x == '@') = false := by
  refine ⟨?_, ?_, ?_, ?_, ?_⟩ <;>
  · rw [Bool.eq_false_iff]
    intro hx
    rw [beq_iff_eq] at hx
    subst hx
    exact absurd h (by decide)

theorem splitCut_no_sep (sep : Char) :
    ∀ l : List Char, ∀ x ∈ (splitCut sep l).1, (x == sep) = false := by
  intro l
  induction l with
  | nil => intro x hx; exact absurd hx (List.not_mem_nil x)
  | cons c cs ih =>
    intro x hx
    by_cases hc : (c == sep) = true
    · rw [splitCut, if_pos hc] at hx
      exact absurd hx (List.not_mem_nil x)
    · rw [splitCut, if_neg hc] at hx
      rcases List.mem_cons.mp hx with rfl | hx'
      · exact Bool.eq_false_iff.mpr hc
      · exact ih x hx'

theorem splitCut_fst_sub (sep : Char) :
    ∀ l : List Char, ∀ x ∈ (splitCut sep l).1, x ∈ l := by
  intro l
  induction l with
  | nil => intro x hx; exact absurd hx (List.not_mem_nil x)
  | cons c cs ih =>
    intro x hx
    by_cases hc : (c == sep) = true
    · rw [splitCut, if_pos hc] at hx
      exact absurd hx (List.not_mem_nil x)
    · rw [splitCut, if_neg hc] at hx
      rcases List.mem_cons.mp hx with rfl | hx'
      · exact List.mem_cons_self x cs
      · exact List.mem_cons_of_mem c (ih x hx')

theorem splitCut_append_of_no_sep (sep : Char) (a b : List Char)
    (ha : ∀ x ∈ a, (x == sep) = false) :
    splitCut sep (a ++ b) = (a ++ (splitCut sep b).1, (splitCut sep b).2) := by
  induction a with
  | nil => simp
  | cons c a' ih =>
    have hc : (c == sep) = false := ha c (List.mem_cons_self c a')
    have ih' := ih (fun x hx => ha x (List.mem_cons_of_mem c hx))
    simp only [List.cons_append, splitCut, hc, Bool.false_eq_true, if_false,
      List.append_eq, ih']

theorem splitCut_cons_of_ne (sep c : Char) (t : List Char) (hc : (c == sep) = false) :
    splitCut sep (c :: t) = (c :: (splitCut sep t).1, (splitCut sep t).2) := by
  simp only [splitCut, hc, Bool.false_eq_true, if_false]

theorem splitKeep_append_first (sep : Char) (a b : List Char)
    (ha : ∀ x ∈ a, (x == sep) = false) :
    splitKeep sep (a ++ sep :: b) = (a, sep :: b) := by
  induction a with
  | nil => simp [splitKeep]
  | cons c a' ih =>
    have hc : (c == sep) = false := ha c (List.mem_cons_self c a')
    have ih' := ih (fun x hx => ha x (List.mem_cons_of_mem c hx))
    simp only [List.cons_append, splitKeep, hc, Bool.false_eq_true, if_false,
      List.append_eq, ih']

theorem splitKeep_no_sep (sep : Char) :
    ∀ l : List Char, ∀ x ∈ (splitKeep sep l).1, (x == sep) = false := by
  intro l
  induction l with
  | nil => intro x hx; exact absurd hx (List.not_mem_nil x)
  | cons c cs ih =>
    intro x hx
    by_cases hc : (c == sep) = true
    · rw [splitKeep, if_pos hc] at hx
      exact absurd hx (List.not_mem_nil x)
    · rw [splitKeep, if_neg hc] at hx
      rcases List.mem_cons.mp hx with rfl | hx'
      · exact Bool.eq_false_iff.mpr hc
      · exact ih x hx'

theorem splitKeep_fst_sub (sep : Char) :
    ∀ l : List Char, ∀ x ∈ (splitKeep sep l).1, x ∈ l := by
  intro l
  induction l with
  | nil => intro x hx; exact absurd hx (List.not_mem_nil x)
  | cons c cs ih =>
    intro x hx
    by_cases hc : (c == sep) = true
    · rw [splitKeep, if_pos hc] at hx
      exact absurd hx (List.not_mem_nil x)
    · rw [splitKeep, if_neg hc] at hx
      rcases List.mem_cons.mp hx with rfl | hx'
      · exact List.mem_cons_self x cs
      · exact List.mem_cons_of_mem c (ih x hx')

theorem getSchemeLoop_valid (orig : List Char) :
    ∀ (t acc res rest : List Char), getSchemeLoop orig acc t = (res, rest) →
      res = [] ∨ ∃ m, res = acc.reverse ++ m ∧ ∀ x ∈ m, isSchemeChar x = true := by
  intro t
  induction t with
  | nil =>
    intro acc res rest h
    rw [getSchemeLoop] at h
    injection h with h1 h2
    exact Or.inl h1.symm
  | cons c cs ih =>
    intro acc res rest h
    rw [getSchemeLoop] at h
    by_cases hc : (c == ':') = true
    · rw [if_pos hc] at h
      injection h with h1 h2
      refine Or.inr ⟨[], ?_, fun x hx => absurd hx (List.not_mem_nil x)⟩
      rw [← h1, List.append_nil]
    · rw [if_neg hc] at h
      by_cases hsc : isSchemeChar c = true
      · rw [if_pos hsc] at h
        rcases ih (c :: acc) res rest h with hres | ⟨m, hm, hmall⟩
        · exact Or.inl hres
        · refine Or.inr ⟨c :: m, ?_, ?_⟩
          · rw [hm, List.reverse_cons, List.append_assoc, List.singleton_append]
          · intro x hx
            rcases List.mem_cons.mp hx with rfl | hx'
            · exact hsc
            · exact hmall x hx'
      · rw [if_neg hsc] at h
        injection h with h1 h2
        exact Or.inl h1.symm

theorem getSchemeLoop_rest_sub (orig : List Char) :
    ∀ (t acc res rest : List Char), getSchemeLoop orig acc t = (res, rest) →
      ∀ x ∈ rest, x ∈ orig ∨ x ∈ t := by
  intro t
  induction t with
  | nil =>
    intro acc res rest h x hx
    rw [getSchemeLoop] at h
    injection h with h1 h2
    rw [← h2] at hx
    exact Or.inl hx
  | cons c cs ih =>
    intro acc res rest h x hx
    rw [getSchemeLoop] at h
    by_cases hc : (c == ':') = true
    · rw [if_pos hc] at h
      injection h with h1 h2
      rw [← h2] at hx
      exact Or.inr (List.mem_cons_of_mem c hx)
    · rw [if_neg hc] at h
      by_cases hsc : isSchemeChar c = true
      · rw [if_pos hsc] at h
        rcases ih (c :: acc) res rest h x hx with ho | ht
        · exact Or.inl ho
        · exact Or.inr (List.mem_cons_of_mem c ht)
      · rw [if_neg hsc] at h
        injection h with h1 h2
        rw [← h2] at hx
        exact Or.inl hx

theorem getScheme_valid (l s rest : List Char) (h : getScheme l = some (s, rest)) :
    s = [] ∨ ∃ c cs, s = c :: cs ∧ isAlphaGo c = true ∧
      ∀ x ∈ cs, isSchemeChar x = true := by
  match l with
  | [] =>
    rw [getScheme] at h
    injection h with h'
    injection h' with h1 h2
    exact Or.inl h1.symm
  | c :: cs =>
    rw [getScheme] at h
    by_cases hc : (c == ':') = true
    · rw [if_pos hc] at h
      exact absurd h (by simp)
    · rw [if_neg hc] at h
      by_cases ha : isAlphaGo c = true
      · rw [if_pos ha] at h
        injection h with h'
        rcases getSchemeLoop_valid (c :: cs) cs [c] s rest h' with hres | ⟨m, hm, hmall⟩
        · exact Or.inl hres
        · refine Or.inr ⟨c, m, ?_, ha, hmall⟩
          rw [hm]
          rfl
      · rw [if_neg ha] at h
        injection h with h'
        injection h' with h1 h2
        exact Or.inl h1.symm

theorem getScheme_rest_sub (l s rest : List Char) (h : getScheme l = some (s, rest)) :
    ∀ x ∈ rest, x ∈ l := by
  match l with
  | [] =>
    rw [getScheme] at h
    injection h with h'
    injection h' with h1 h2
    intro x hx
    rw [← h2] at hx
    exact absurd hx (List.not_mem_nil x)
  | c :: cs =>
    rw [getScheme] at h
    intro x hx
    by_cases hc : (c == ':') = true
    · rw [if_pos hc] at h
      exact absurd h (by simp)
    · rw [if_neg hc] at h
      by_cases ha : isAlphaGo c = true
      · rw [if_pos ha] at h
        injection h with h'
        rcases getSchemeLoop_rest_sub (c :: cs) cs [c] s rest h' x hx with ho | ht
        · exact ho
        · exact List.mem_cons_of_mem c ht
      · rw [if_neg ha] at h
        injection h with h'
        injection h' with h1 h2
        rw [← h2] at hx
        exact hx

theorem getSchemeLoop_found (orig : List Char) :
    ∀ (m : List Char), (∀ x ∈ m, isSchemeChar x = true) →
      ∀ (acc rest : List Char),
        getSchemeLoop orig acc (m ++ ':' :: rest) = (acc.reverse ++ m, rest) := by
  intro m
  induction m with
  | nil =>
    intro _ acc rest
    simp [getSchemeLoop]
  | cons c m' ih =>
    intro hall acc rest
    have hsc : isSchemeChar c = true := hall c (List.mem_cons_self c m')
    have hc : (c == ':') = false := (schemeChar_not_special c hsc).1
    rw [List.cons_append, getSchemeLoop, if_neg (by rw [hc]; exact Bool.false_ne_true),
      if_pos hsc, ih (fun x hx => hall x (List.mem_cons_of_mem c hx))]
    rw [List.reverse_cons, List.append_assoc, List.singleton_append]

theorem getScheme_of_valid (c : Char) (cs rest : List Char) (hc : isAlphaGo c = true)
    (hcs : ∀ x ∈ cs, isSchemeChar x = true) :
    getScheme ((c :: cs) ++ ':' :: rest) = some (c :: cs, rest) := by
  have hcolon : (c == ':') = false :=
    (schemeChar_not_special c (schemeChar_of_alpha c hc)).1
  rw [List.cons_append, getScheme, if_neg (by rw [hcolon]; exact Bool.false_ne_true),
    if_pos hc, getSchemeLoop_found _ cs hcs [c] rest]
  rfl

theorem toLowerGo_idem (c : Char) : toLowerGo (toLowerGo c) = toLowerGo c := by
  match h : toLowerPairs.find? (fun p => p.1 == c) with
  | none =>
    have hc : toLowerGo c = c := by rw [toLowerGo, h]; rfl
    rw [hc, hc]
  | some p =>
    have hp : p ∈ toLowerPairs := List.mem_of_find?_eq_some h
    have hc : toLowerGo c = p.2 := by rw [toLowerGo, h]; rfl
    have hnone : ∀ q ∈ toLowerPairs,
        toLowerPairs.find? (fun r => r.1 == q.2) = none := by decide
    rw [hc, toLowerGo, hnone p hp]
    rfl

theorem toLowerGo_alpha (c : Char) (h : isAlphaGo c = true) :
    isAlphaGo (toLowerGo c) = true := by
  match hf : toLowerPairs.find? (fun p => p.1 == c) with
  | none =>
    have hc : toLowerGo c = c := by rw [toLowerGo, hf]; rfl
    rw [hc]; exact h
  | some p =>
    have hp : p ∈ toLowerPairs := List.mem_of_find?_eq_some hf
    have hc : toLowerGo c = p.2 := by rw [toLowerGo, hf]; rfl
    have halpha : ∀ q ∈ toLowerPairs, isAlphaGo q.2 = true := by decide
    rw [hc]; exact halpha p hp

theorem toLowerGo_schemeChar (c : Char) (h : isSchemeChar c = true) :
    isSchemeChar (toLowerGo c) = true := by
  match hf : toLowerPairs.find? (fun p => p.1 == c) with
  | none =>
    have hc : toLowerGo c = c := by rw [toLowerGo, hf]; rfl
    rw [hc]; exact h
  | some p =>
    have hp : p ∈ toLowerPairs := List.mem_of_find?_eq_some hf
    have hc : toLowerGo c = p.2 := by rw [toLowerGo, hf]; rfl
    have hsc : ∀ q ∈ toLowerPairs, isSchemeChar q.2 = true := by decide
    rw [hc]; exact hsc p hp

theorem toLowerL_idem (l : List Char) : toLowerL (toLowerL l) = toLowerL l := by
  induction l with
  | nil => rfl
  | cons c cs ih =>
    simp only [toLowerL, List.map_cons] at ih ⊢
    rw [toLowerGo_idem, ih]

theorem takeWhile_all {p : Char → Bool} :
    ∀ l : List Char, (∀ x ∈ l, p x = true) → l.takeWhile p = l := by
  intro l h
  exact List.takeWhile_eq_self_iff.mpr h

theorem dropUserinfo_no_at (l : List Char) :
    ∀ x ∈ dropUserinfo l, (x == '@') = false := by
  intro x hx
  rw [dropUserinfo, List.mem_reverse] at hx
  have := List.mem_takeWhile_imp hx
  simpa using this

theorem dropUserinfo_eq_of_no_at (l : List Char) (h : ∀ x ∈ l, (x == '@') = false) :
    dropUserinfo l = l := by
  rw [dropUserinfo, takeWhile_all]
  · exact List.reverse_reverse l
  · intro x hx
    rw [List.mem_reverse] at hx
    simp [h x hx]

theorem dropUserinfo_sub (l : List Char) : ∀ x ∈ dropUserinfo l, x ∈ l := by
  intro x hx
  rw [dropUserinfo, List.mem_reverse] at hx
  have := (List.takeWhile_sublist _).mem hx
  rw [List.mem_reverse] at this
  exact this

theorem parseCore_shape (l : List Char) (hl : ∀ x ∈ l, (x == '#') = false)
    (u : GoUrl) (h : parseCore l = some u) :
    SchemeOk u.scheme ∧ HostOk u.host ∧ u.fragment = [] := by
  match hgs : getScheme l with
  | none =>
    rw [parseCore, hgs] at h
    exact absurd h (by simp)
  | some (schemeRaw, rest0) =>
    rw [parseCore, hgs] at h
    have hrest0_sub := getScheme_rest_sub l schemeRaw rest0 hgs
    have hsok : SchemeOk (toLowerL schemeRaw) := by
      refine ⟨toLowerL_idem _, ?_⟩
      rcases getScheme_valid l schemeRaw rest0 hgs with rfl | ⟨c, cs, rfl, hc, hcs⟩
      · exact Or.inl rfl
      · refine Or.inr ⟨toLowerGo c, toLowerL cs, rfl, toLowerGo_alpha c hc, ?_⟩
        intro x hx
        obtain ⟨y, hy, rfl⟩ := List.mem_map.mp hx
        exact toLowerGo_schemeChar y (hcs y hy)
    rcases hq : splitCut '?' rest0 with ⟨rest1, query⟩
    simp only [hq] at h
    have hrest1_noq : ∀ x ∈ rest1, (x == '?') = false := by
      have h0 := splitCut_no_sep '?' rest0
      rw [hq] at h0
      exact h0
    have hrest1_sub : ∀ x ∈ rest1, x ∈ rest0 := by
      have h0 := splitCut_fst_sub '?' rest0
      rw [hq] at h0
      exact h0
    cases rest1 with
    | nil =>
      obtain rfl := Option.some.inj h
      exact ⟨hsok, fun x hx => absurd hx (List.not_mem_nil x), rfl⟩
    | cons c cs =>
      dsimp only at h
      by_cases hslash : (c == '/') = true
      · rw [if_pos hslash] at h
        cases cs with
        | nil =>
          obtain rfl := Option.some.inj h
          exact ⟨hsok, fun x hx => absurd hx (List.not_mem_nil x), rfl⟩
        | cons c2 cs2 =>
          dsimp only at h
          by_cases hslash2 : (c2 == '/') = true
          · rw [if_pos hslash2] at h
            rcases hsk : splitKeep '/' cs2 with ⟨auth, rest2⟩
            simp only [hsk] at h
            obtain rfl := Option.some.inj h
            refine ⟨hsok, ?_, rfl⟩
            intro x hx
            have hauth : x ∈ auth := dropUserinfo_sub auth x hx
            have hcs2 : x ∈ cs2 := by
              have h0 := splitKeep_fst_sub '/' cs2
              rw [hsk] at h0
              exact h0 x hauth
            have hrest1mem : x ∈ c :: c2 :: cs2 :=
              List.mem_cons_of_mem c (List.mem_cons_of_mem c2 hcs2)
            refine ⟨?_, hrest1_noq x hrest1mem, ?_, dropUserinfo_no_at auth x hx⟩
            · have h0 := splitKeep_no_sep '/' cs2
              rw [hsk] at h0
              exact h0 x hauth
            · exact hl x (hrest0_sub x (hrest1_sub x hrest1mem))
          · rw [if_neg hslash2] at h
            obtain rfl := Option.some.inj h
            exact ⟨hsok, fun x hx => absurd hx (List.not_mem_nil x), rfl⟩
      · rw [if_neg hslash] at h
        by_cases hne : toLowerL schemeRaw ≠ []
        · rw [if_pos hne] at h
          obtain rfl := Option.some.inj h
          exact ⟨hsok, fun x hx => absurd hx (List.not_mem_nil x), rfl⟩
        · rw [if_neg hne] at h
          by_cases hcol : ((splitKeep '/' (c :: cs)).1.contains ':') = true
          · rw [if_pos hcol] at h
            exact absurd h (by simp)
          · rw [if_neg hcol] at h
            obtain rfl := Option.some.inj h
            exact ⟨hsok, fun x hx => absurd hx (List.not_mem_nil x), rfl⟩

theorem parseUrl_shape (root : String) (r : GoUrl) (h : parseUrl root = some r) :
    SchemeOk r.scheme ∧ HostOk r.host := by
  rw [parseUrl] at h
  rcases hbf : splitCut '#' root.toList with ⟨before, frag⟩
  simp only [hbf] at h
  by_cases hctl : (before.any isCtl) = true
  · rw [if_pos hctl] at h
    exact absurd h (by simp)
  · rw [if_neg hctl] at h
    match hpc : parseCore before with
    | none =>
      rw [hpc] at h
      exact absurd h (by simp)
    | some u =>
      rw [hpc] at h
      have hnohash : ∀ x ∈ before, (x == '#') = false := by
        have h0 := splitCut_no_sep '#' root.toList
        rw [hbf] at h0
        exact h0
      obtain ⟨hs, hh, _⟩ := parseCore_shape before hnohash u hpc
      obtain rfl := Option.some.inj h
      exact ⟨hs, hh⟩

theorem parseUrl_construct (c : Char) (cs host t : List Char)
    (hc : isAlphaGo c = true) (hcs : ∀ x ∈ cs, isSchemeChar x = true)
    (hhost : HostOk host) :
    parseUrl (String.mk ((c :: cs) ++ [':', '/', '/'] ++ host ++ ('/' :: t))) = none ∨
    ∃ u, parseUrl (String.mk ((c :: cs) ++ [':', '/', '/'] ++ host ++ ('/' :: t)))
        = some u ∧
      u.scheme = toLowerL (c :: cs) ∧ u.host = host := by
  have hA_nohash : ∀ x ∈ (c :: cs) ++ [':', '/', '/'] ++ host, (x == '#') = false := by
    intro x hx
    rcases List.mem_append.mp hx with hx1 | hxh
    · rcases List.mem_append.mp hx1 with hxs | hxm
      · rcases List.mem_cons.mp hxs with rfl | hx'
        · exact (schemeChar_not_special x (schemeChar_of_alpha x hc)).2.2.2.1
        · exact (schemeChar_not_special x (hcs x hx')).2.2.2.1
      · fin_cases hxm <;> decide
    · exact (hhost x hxh).2.2.1
  have hbefore : splitCut '#' ((c :: cs) ++ [':', '/', '/'] ++ host ++ ('/' :: t)) =
      (((c :: cs) ++ [':', '/', '/'] ++ host) ++ ('/' :: (splitCut '#' t).1),
        (splitCut '#' t).2) := by
    rw [splitCut_append_of_no_sep '#' _ _ hA_nohash,
      splitCut_cons_of_ne '#' '/' t (by decide)]
  set t₁ := (splitCut '#' t).1 with ht₁
  set frag := (splitCut '#' t).2 with hfrag
  by_cases hctl :
      ((((c :: cs) ++ [':', '/', '/'] ++ host) ++ ('/' :: t₁)).any isCtl) = true
  · left
    rw [parseUrl]
    simp only [show (String.mk ((c :: cs) ++ [':', '/', '/'] ++ host ++ ('/' :: t))).toList
        = (c :: cs) ++ [':', '/', '/'] ++ host ++ ('/' :: t) from rfl, hbefore]
    rw [if_pos hctl]
  · right
    have hassoc : ((c :: cs) ++ [':', '/', '/'] ++ host) ++ ('/' :: t₁) =
        (c :: cs) ++ ':' :: ('/' :: '/' :: (host ++ ('/' :: t₁))) := by
      simp
    have hgs : getScheme (((c :: cs) ++ [':', '/', '/'] ++ host) ++ ('/' :: t₁)) =
        some (c :: cs, '/' :: '/' :: (host ++ ('/' :: t₁))) := by
      rw [hassoc]
      exact getScheme_of_valid c cs _ hc hcs
    have hnq : ∀ x ∈ ('/' : Char) :: '/' :: host, (x == '?') = false := by
      intro x hx
      rcases List.mem_cons.mp hx with rfl | hx1
      · decide
      rcases List.mem_cons.mp hx1 with rfl | hx2
      · decide
      · exact (hhost x hx2).2.1
    have hq2 : splitCut '?' ('/' :: '/' :: (host ++ ('/' :: t₁))) =
        ('/' :: '/' :: (host ++ ('/' :: (splitCut '?' t₁).1)), (splitCut '?' t₁).2) := by
      have he : ('/' :: '/' :: (host ++ ('/' :: t₁))) =
          ('/' :: '/' :: host) ++ ('/' :: t₁) := by simp
      rw [he, splitCut_append_of_no_sep '?' _ _ hnq,
        splitCut_cons_of_ne '?' '/' t₁ (by decide)]
      simp
    set t₂ := (splitCut '?' t₁).1 with ht₂
    have hsk : splitKeep '/' (host ++ '/' :: t₂) = (host, '/' :: t₂) :=
      splitKeep_append_first '/' host t₂ (fun x hx => (hhost x hx).1)
    have hdui : dropUserinfo host = host :=
      dropUserinfo_eq_of_no_at host (fun x hx => (hhost x hx).2.2.2)
    have hpc : parseCore (((c :: cs) ++ [':', '/', '/'] ++ host) ++ ('/' :: t₁)) =
        some ⟨toLowerL (c :: cs), [], host, '/' :: t₂, (splitCut '?' t₁).2, []⟩ := by
      rw [parseCore, hgs]
      simp only [hq2]
      rw [if_pos (show (('/' : Char) == '/') = true from rfl),
        if_pos (show (('/' : Char) == '/') = true from rfl)]
      simp only [hsk, hdui]
    refine ⟨⟨toLowerL (c :: cs), [], host, '/' :: t₂, (splitCut '?' t₁).2, frag⟩,
      ?_, rfl, rfl⟩
    rw [parseUrl]
    simp only [show (String.mk ((c :: cs) ++ [':', '/', '/'] ++ host ++ ('/' :: t))).toList
        = (c :: cs) ++ [':', '/', '/'] ++ host ++ ('/' :: t) from rfl, hbefore]
    rw [if_neg hctl, hpc]
    rfl

/-- C7: `ParseRelativeUrl` returns nothing when the root url fails to
parse; any returned url carries the root's scheme and host with an empty
(stripped) fragment; and the concrete resolutions behave as claimed,
including the collapse of `.`/`..`/redundant-slash segments. -/
theorem c7_parse_relative_url :
    (∀ rootUrl relativeUrl : String, parseUrl rootUrl = none →
      ParseRelativeUrl rootUrl relativeUrl = none) ∧
    (∀ rootUrl relativeUrl : String, ∀ r u : GoUrl,
      parseUrl rootUrl = some r → ParseRelativeUrl rootUrl relativeUrl = some u →
      u.scheme = r.scheme ∧ u.host = r.host ∧ u.fragment = []) ∧
    (ParseRelativeUrl "http://example.edu" "/myfolder/test").map UrlString =
      some "http://example.edu/myfolder/test" ∧
    (ParseRelativeUrl "http://example.edu" "test/").map UrlString =
      some "http://example.edu/test" ∧
    (ParseRelativeUrl "http://example.edu" "test#frag").map UrlString =
      some "http://example.edu/test" ∧
    (ParseRelativeUrl "http://example.edu" "a/./b//../c").map UrlString =
      some "http://example.edu/a/c" := by
  refine ⟨?_, ?_, by decide, by decide, by decide, by decide⟩
  · intro rootUrl relativeUrl h
    rw [ParseRelativeUrl, h]
  · intro rootUrl relativeUrl r u hroot hprl
    rw [ParseRelativeUrl, hroot] at hprl
    dsimp only at hprl
    obtain ⟨⟨hlow, hsv⟩, hhost⟩ := parseUrl_shape rootUrl r hroot
    rcases hsv with hempty | ⟨c, cs, hsch, hc, hcs⟩
    · exfalso
      rw [hempty] at hprl
      have hL : ([] : List Char) ++ [':', '/', '/'] ++ r.host ++
          pathCleanRooted ('/' :: relativeUrl.toList) =
          ':' :: (('/' :: '/' :: r.host) ++
            pathCleanRooted ('/' :: relativeUrl.toList)) := by
        simp
      rw [hL] at hprl
      have hnone : parseUrl (String.mk (':' :: (('/' :: '/' :: r.host) ++
          pathCleanRooted ('/' :: relativeUrl.toList)))) = none := by
        rw [parseUrl]
        simp only [show (String.mk (':' :: (('/' :: '/' :: r.host) ++
            pathCleanRooted ('/' :: relativeUrl.toList)))).toList =
            ':' :: (('/' :: '/' :: r.host) ++
              pathCleanRooted ('/' :: relativeUrl.toList)) from rfl]
        rw [splitCut_cons_of_ne '#' ':' _ (by decide)]
        dsimp only
        by_cases hctl : ((':' :: (splitCut '#' (('/' :: '/' :: r.host) ++
            pathCleanRooted ('/' :: relativeUrl.toList))).1).any isCtl) = true
        · rw [if_pos hctl]
        · rw [if_neg hctl]
          rw [show parseCore (':' :: (splitCut '#' (('/' :: '/' :: r.host) ++
              pathCleanRooted ('/' :: relativeUrl.toList))).1) = none from ?_]
          · rfl
          · rw [parseCore, getScheme, if_pos (show ((':' : Char) == ':') = true from rfl)]
      rw [hnone] at hprl
      exact absurd hprl (by simp)
    · rw [hsch] at hprl
      rcases parseUrl_construct c cs r.host
          (List.tail (pathCleanRooted ('/' :: relativeUrl.toList))) hc hcs hhost
        with hnone | ⟨a, ha, has, hah⟩
      all_goals
        rw [show ('/' :: List.tail (pathCleanRooted ('/' :: relativeUrl.toList))) =
          pathCleanRooted ('/' :: relativeUrl.toList) from rfl] at *
      · rw [hnone] at hprl
        exact absurd hprl (by simp)
      · rw [ha] at hprl
        dsimp only at hprl
        obtain rfl := (Option.some.inj hprl).symm
        refine ⟨?_, ?_, rfl⟩
        · show a.scheme = r.scheme
          rw [has, ← hsch, hlow]
        · show a.host = r.host
          exact hah

theorem c7_parse_relative_url_witness :
    ParseRelativeUrl "\x01" "x" = none :=
  c7_parse_relative_url.1 "\x01" "x" (by decide)

end Clamber
